import Mathlib

/-!
Verification of the run-report registry and the module-resolution core of a
multi-module infrastructure-as-code driver (Go sources: the `report` package
and `configstack/default_stack.go`).

The Go code is shallowly embedded: time instants become `Int` (nanoseconds
since the epoch, matching the total order and subtraction of `time.Time`),
Go slices become `List`, fallible operations return `Except`, and the
in-place mutation of the report becomes explicit state passing.
-/

namespace Spec2Proof

/-! ## Report data model (Go package `report`) -/

/-- Embedding of `report.Run`: one per-unit outcome record.  `Started` and
`Ended` are `time.Time` values embedded as nanoseconds since the epoch.
`Reason` and `Cause` are pointer fields in Go (`*Reason`, `*Cause`), hence
`Option` here.  `Result` is a Go string type. -/
structure Run where
  Started : Int
  Ended : Int
  Reason : Option String
  Cause : Option String
  Name : String
  Result : String
  deriving Repr, DecidableEq

/-- Embedding of `report.Report`: the ordered run list plus the color toggle.
The mutex only serializes access and has no sequential meaning. -/
structure Report where
  Runs : List Run
  shouldColor : Bool
  deriving Repr, DecidableEq

/-- The error values of the `report` package (`ErrPathMustBeAbsolute`,
`ErrRunAlreadyExists`, `ErrRunNotFound`, wrapped with the offending name). -/
inductive ReportErr where
  | PathMustBeAbsolute
  | RunAlreadyExists (name : String)
  | RunNotFound (path : String)
  deriving Repr, DecidableEq

/-- `report.ResultSucceeded` -/
def ResultSucceeded : String := "succeeded"

/-- `report.ResultFailed` -/
def ResultFailed : String := "failed"

/-- `report.ResultEarlyExit` -/
def ResultEarlyExit : String := "early exit"

/-- `report.ResultExcluded` -/
def ResultExcluded : String := "excluded"

/-- `report.NewReport`: empty run list, color enabled. -/
def NewReport : Report := { Runs := [], shouldColor := true }

/-- `filepath.IsAbs` on Unix: the path is absolute iff it starts with a
slash (stated on the character list so it evaluates by `decide`). -/
def filepathIsAbs (path : String) : Bool := path.data.head? == some '/'

/-- `report.NewRun`: requires an absolute path and records the start time
(the `time.Now()` call is passed in as `now`). -/
def NewRun (now : Int) (path : String) : Except ReportErr Run :=
  if !filepathIsAbs path then
    .error .PathMustBeAbsolute
  else
    .ok { Started := now, Ended := 0, Reason := none, Cause := none,
          Name := path, Result := "" }

/-- `Report.AddRun`: scans the existing runs for one with the same name;
if found, returns `ErrRunAlreadyExists`, otherwise appends the run. -/
def Report.AddRun (r : Report) (run : Run) : Except ReportErr Report :=
  if r.Runs.any (fun existingRun => existingRun.Name == run.Name) then
    .error (.RunAlreadyExists run.Name)
  else
    .ok { r with Runs := r.Runs ++ [run] }

/-- `Report.GetRun`: requires an absolute path, then returns the first run
with that name or `ErrRunNotFound`. -/
def Report.GetRun (r : Report) (path : String) : Except ReportErr Run :=
  if !filepathIsAbs path then
    .error .PathMustBeAbsolute
  else
    match r.Runs.find? (fun run => run.Name == path) with
    | some run => .ok run
    | none => .error (.RunNotFound path)

/-! ### End options

In Go, `EndOption` is `func(*Run)`, but the package only exports the
constructors `WithResult`, `WithReason` and the four `WithCause...`
wrappers around the private `withCause`; an `EndOption` value reaching
`EndRun` is built from these. -/

/-- The end options constructible from the exported API of the package. -/
inductive EndOption where
  | withResultOpt (result : String)
  | withReasonOpt (reason : String)
  | withCauseOpt (name : String)
  deriving Repr, DecidableEq

/-- `report.WithResult`: sets the result of a run. -/
def WithResult (result : String) : EndOption := .withResultOpt result

/-- `report.WithReason`: sets the reason of a run. -/
def WithReason (reason : String) : EndOption := .withReasonOpt reason

/-- `report.WithCauseRetryBlock`, a wrapper around `withCause`. -/
def WithCauseRetryBlock (name : String) : EndOption := .withCauseOpt name

/-- `report.WithCauseIgnoreBlock`, a wrapper around `withCause`. -/
def WithCauseIgnoreBlock (name : String) : EndOption := .withCauseOpt name

/-- `report.WithCauseExcludeBlock`, a wrapper around `withCause`. -/
def WithCauseExcludeBlock (name : String) : EndOption := .withCauseOpt name

/-- `report.WithCauseAncestorExit`, a wrapper around `withCause`. -/
def WithCauseAncestorExit (name : String) : EndOption := .withCauseOpt name

/-- Application of one end option to a run, following each closure body. -/
def applyEndOption (run : Run) : EndOption → Run
  | .withResultOpt result => { run with Result := result }
  | .withReasonOpt reason => { run with Reason := some reason }
  | .withCauseOpt name => { run with Cause := some name }

/-- The mutation `EndRun` performs on the located run: set `Ended` to now,
set the result to `ResultSucceeded`, then apply the options in order. -/
def endRunUpdate (now : Int) (endOptions : List EndOption) (run : Run) : Run :=
  endOptions.foldl applyEndOption
    { run with Ended := now, Result := ResultSucceeded }

/-- Replace the first run named `path` by `f` of it (the Go code mutates the
first matching `*Run` through its pointer). -/
def updateFirstRun (path : String) (f : Run → Run) : List Run → List Run
  | [] => []
  | run :: rest =>
    if run.Name == path then f run :: rest
    else run :: updateFirstRun path f rest

/-- `Report.EndRun`: rejects non-absolute paths, then looks the run up by
name (`ErrRunNotFound` if absent), sets `Ended = now`, defaults the result
to `succeeded` and applies the options in order. -/
def Report.EndRun (r : Report) (now : Int) (path : String)
    (endOptions : List EndOption) : Except ReportErr Report :=
  if !filepathIsAbs path then
    .error .PathMustBeAbsolute
  else if (r.Runs.find? (fun run => run.Name == path)).isNone then
    .error (.RunNotFound path)
  else
    .ok { r with Runs := updateFirstRun path (endRunUpdate now endOptions) r.Runs }

/-! ## C1: AddRun appends, rejects duplicates, and keeps names unique -/

/-- Fold a sequence of `AddRun` calls over a report; a failed call leaves
the report unchanged (the Go caller keeps using the same report). -/
def applyAddRuns (r : Report) (runs : List Run) : Report :=
  runs.foldl
    (fun acc run =>
      match acc.AddRun run with
      | .ok next => next
      | .error _ => acc)
    r

/-- The names in a report, in order. -/
def runNames (r : Report) : List String := r.Runs.map Run.Name

/-- **C1.** `AddRun` appends the run when no run with the same name is
present, fails with `RunAlreadyExists` when one is, and consequently any
sequence of `AddRun` calls starting from a report with pairwise distinct
names (such as `NewReport`) keeps each unit path at most once. -/
theorem addRun_appends_and_names_unique
    (r : Report) (run : Run) (runs : List Run)
    (hnodup : (runNames r).Nodup) :
    (¬ (∃ e ∈ r.Runs, e.Name = run.Name) →
      r.AddRun run = .ok { r with Runs := r.Runs ++ [run] }) ∧
    ((∃ e ∈ r.Runs, e.Name = run.Name) →
      r.AddRun run = .error (.RunAlreadyExists run.Name)) ∧
    (runNames (applyAddRuns r runs)).Nodup := by
  refine ⟨?_, ?_, ?_⟩
  · intro hnone
    have h : r.Runs.any (fun existingRun => existingRun.Name == run.Name) = false := by
      rw [List.any_eq_false]
      intro e he
      simp only [beq_iff_eq]
      intro heq
      exact hnone ⟨e, he, heq⟩
    simp [Report.AddRun, h]
  · intro ⟨e, he, heq⟩
    have h : r.Runs.any (fun existingRun => existingRun.Name == run.Name) = true := by
      rw [List.any_eq_true]
      exact ⟨e, he, by simp [heq]⟩
    simp [Report.AddRun, h]
  · induction runs generalizing r with
    | nil => exact hnodup
    | cons run rest ih =>
      simp only [applyAddRuns, List.foldl_cons]
      rcases hadd : Report.AddRun r run with err | next
      · exact ih r hnodup
      · have hnext : next = { r with Runs := r.Runs ++ [run] } := by
          by_cases hmem : r.Runs.any (fun e => e.Name == run.Name)
          · simp [Report.AddRun, hmem] at hadd
          · simp only [Bool.not_eq_true] at hmem
            simp [Report.AddRun, hmem] at hadd
            exact hadd.symm
        have hfresh : run.Name ∉ runNames r := by
          intro hmem'
          rcases List.mem_map.mp hmem' with ⟨e, he, heq⟩
          have : r.Runs.any (fun e => e.Name == run.Name) = true := by
            rw [List.any_eq_true]
            exact ⟨e, he, by simp [heq]⟩
          simp [Report.AddRun, this] at hadd
        have hnodup' : (runNames next).Nodup := by
          have heq2 : runNames next = runNames r ++ [run.Name] := by
            subst hnext
            simp [runNames]
          rw [heq2, List.nodup_append]
          refine ⟨hnodup, List.nodup_singleton _, ?_⟩
          intro x hx hy
          simp only [List.mem_singleton] at hy
          exact hfresh (hy ▸ hx)
        exact ih next hnodup'

/-- Witness for C1 at a concrete input: starting from the empty report,
adding a run, a duplicate of it and a distinct run exercises every clause. -/
theorem addRun_appends_and_names_unique_witness :
    (runNames NewReport).Nodup ∧
    (runNames (applyAddRuns NewReport
      [{ Started := 0, Ended := 0, Reason := none, Cause := none,
         Name := "/a", Result := "" },
       { Started := 1, Ended := 0, Reason := none, Cause := none,
         Name := "/a", Result := "" },
       { Started := 2, Ended := 0, Reason := none, Cause := none,
         Name := "/b", Result := "" }])).Nodup := by
  refine ⟨by decide, ?_⟩
  exact (addRun_appends_and_names_unique NewReport
    { Started := 0, Ended := 0, Reason := none, Cause := none,
      Name := "/a", Result := "" }
    [{ Started := 0, Ended := 0, Reason := none, Cause := none,
       Name := "/a", Result := "" },
     { Started := 1, Ended := 0, Reason := none, Cause := none,
       Name := "/a", Result := "" },
     { Started := 2, Ended := 0, Reason := none, Cause := none,
       Name := "/b", Result := "" }] (by decide)).2.2

/-! ## C6: EndRun semantics -/

/-- `applyEndOption` never touches `Ended`. -/
theorem applyEndOption_Ended (run : Run) (o : EndOption) :
    (applyEndOption run o).Ended = run.Ended := by
  cases o <;> rfl

/-- A fold of end options never touches `Ended`. -/
theorem foldl_applyEndOption_Ended (opts : List EndOption) (run : Run) :
    (opts.foldl applyEndOption run).Ended = run.Ended := by
  induction opts generalizing run with
  | nil => rfl
  | cons o rest ih => rw [List.foldl_cons, ih, applyEndOption_Ended]

/-- Without a `WithResult` option, a fold of end options never touches
`Result`. -/
theorem foldl_applyEndOption_Result (opts : List EndOption) (run : Run)
    (h : ∀ res, EndOption.withResultOpt res ∉ opts) :
    (opts.foldl applyEndOption run).Result = run.Result := by
  induction opts generalizing run with
  | nil => rfl
  | cons o rest ih =>
    rw [List.foldl_cons]
    have hrest : ∀ res, EndOption.withResultOpt res ∉ rest := by
      intro res hmem
      exact h res (List.mem_cons_of_mem _ hmem)
    rw [ih _ hrest]
    cases o with
    | withResultOpt res => exact absurd (List.mem_cons_self _ _) (h res)
    | withReasonOpt reason => rfl
    | withCauseOpt name => rfl

/-- **C6.** `EndRun` fails with `PathMustBeAbsolute` on a non-absolute path
and with `RunNotFound` when no run has the given name (the report is
unchanged in both cases, as the error result carries no new report); when
the run exists, it updates the first run with that name by setting
`Ended = now`, defaulting the result to `succeeded`, and applying the
options in order, so that `Ended` is always `now` and the result stays
`succeeded` unless a `WithResult` option overrides it. -/
theorem endRun_spec (r : Report) (now : Int) (path : String)
    (opts : List EndOption) :
    (filepathIsAbs path = false →
      r.EndRun now path opts = .error .PathMustBeAbsolute) ∧
    (filepathIsAbs path = true → (∀ e ∈ r.Runs, e.Name ≠ path) →
      r.EndRun now path opts = .error (.RunNotFound path)) ∧
    (∀ pre run post, filepathIsAbs path = true →
      r.Runs = pre ++ run :: post → (∀ e ∈ pre, e.Name ≠ path) →
      run.Name = path →
      r.EndRun now path opts =
        .ok { r with Runs := pre ++ endRunUpdate now opts run :: post }) ∧
    (∀ run, (endRunUpdate now opts run).Ended = now) ∧
    ((∀ res, EndOption.withResultOpt res ∉ opts) →
      ∀ run, (endRunUpdate now opts run).Result = ResultSucceeded) := by
  refine ⟨?_, ?_, ?_, ?_, ?_⟩
  · intro habs
    simp [Report.EndRun, habs]
  · intro habs hnone
    have hfind : r.Runs.find? (fun run => run.Name == path) = none := by
      rw [List.find?_eq_none]
      intro e he
      simpa using hnone e he
    simp [Report.EndRun, habs, hfind]
  · intro pre run post habs hruns hpre hname
    have hfind : (r.Runs.find? (fun run => run.Name == path)).isSome := by
      cases hf : r.Runs.find? (fun run => run.Name == path) with
      | none =>
        exact absurd (List.find?_eq_none.mp hf run
          (by rw [hruns]; simp) (by simp [hname])) (by simp)
      | some _ => rfl
    have hupd : updateFirstRun path (endRunUpdate now opts) r.Runs =
        pre ++ endRunUpdate now opts run :: post := by
      rw [hruns]
      clear hruns hfind
      induction pre with
      | nil => simp [updateFirstRun, hname]
      | cons e rest ih =>
        have hne : (e.Name == path) = false := by
          simp only [beq_eq_false_iff_ne, ne_eq]
          exact hpre e (by simp)
        simp only [updateFirstRun, List.cons_append, hne, Bool.false_eq_true,
          if_false, List.cons.injEq, true_and]
        exact ih (fun e' he' => hpre e' (List.mem_cons_of_mem _ he'))
    rcases Option.isSome_iff_exists.mp hfind with ⟨found, hfound⟩
    simp [Report.EndRun, habs, hfound, hupd]
  · intro run
    exact foldl_applyEndOption_Ended opts _
  · intro hno run
    rw [endRunUpdate, foldl_applyEndOption_Result opts _ hno]

/-- Witness for C6: a two-run report exercises the not-absolute case, the
not-found case and the successful update at concrete inputs. -/
theorem endRun_spec_witness :
    (({ Runs := [{ Started := 0, Ended := 0, Reason := none, Cause := none,
                   Name := "/a", Result := "" }], shouldColor := true } :
        Report).EndRun 7 "b" [] = .error .PathMustBeAbsolute) ∧
    (({ Runs := [{ Started := 0, Ended := 0, Reason := none, Cause := none,
                   Name := "/a", Result := "" }], shouldColor := true } :
        Report).EndRun 7 "/b" [] = .error (.RunNotFound "/b")) ∧
    (({ Runs := [{ Started := 0, Ended := 0, Reason := none, Cause := none,
                   Name := "/a", Result := "" }], shouldColor := true } :
        Report).EndRun 7 "/a" [WithReason "error ignored"] =
      .ok { Runs := [{ Started := 0, Ended := 7,
                       Reason := some "error ignored", Cause := none,
                       Name := "/a", Result := ResultSucceeded }],
            shouldColor := true }) := by
  refine ⟨?_, ?_, ?_⟩
  · exact (endRun_spec _ 7 "b" []).1 (by decide)
  · exact (endRun_spec _ 7 "/b" []).2.1 (by decide) (by decide)
  · have h := (endRun_spec
      { Runs := [{ Started := 0, Ended := 0, Reason := none, Cause := none,
                   Name := "/a", Result := "" }], shouldColor := true }
      7 "/a" [WithReason "error ignored"]).2.2.1 []
      { Started := 0, Ended := 0, Reason := none, Cause := none,
        Name := "/a", Result := "" } [] (by decide) rfl (by decide) rfl
    simpa [endRunUpdate, applyEndOption, WithReason, ResultSucceeded] using h

/-! ## Summary model (Go `report.Summary`) -/

/-- Go byte length of a string (`len` on a Go string counts UTF-8 bytes). -/
def goLen (s : String) : Nat := s.utf8ByteSize

/-- Embedding of `report.Summary`.  The Go `int` counters are `Nat` since
they are only ever incremented from zero. -/
structure Summary where
  firstRunStart : Option Int
  lastRunEnd : Option Int
  padder : String
  TotalUnits : Nat
  UnitsSucceeded : Nat
  UnitsFailed : Nat
  EarlyExits : Nat
  Excluded : Nat
  shouldColor : Bool
  deriving Repr, DecidableEq

/-- Go constant `prefix` (three spaces). -/
def prefixStr : String := "   "

/-- Go constant `durationLabel`. -/
def durationLabel : String := "Duration"

/-- Go constant `unitsLabel`. -/
def unitsLabel : String := "Units"

/-- Go constant `successLabel`. -/
def successLabel : String := "Succeeded"

/-- Go constant `failureLabel`. -/
def failureLabel : String := "Failed"

/-- Go constant `earlyExitLabel`. -/
def earlyExitLabel : String := "Early Exits"

/-- Go constant `excludeLabel`. -/
def excludeLabel : String := "Excluded"

/-- Go constant `separator`. -/
def separatorStr : String := ": "

/-- `slices.Max` over a list of naturals (the Go call panics on an empty
slice; every call site below passes a non-empty list, where the fold
computes the maximum). -/
def slicesMax (l : List Nat) : Nat := l.foldl max 0

/-- `Summary.longestLineLength`: lengths of the labels that will be
printed (`Duration` and `Units` always, the per-result labels only when
their counter is nonzero), each extended by the prefix and separator
lengths, then the maximum. -/
def Summary.longestLineLength (s : Summary) : Nat :=
  let lengths := [goLen durationLabel, goLen unitsLabel]
  let lengths := if s.UnitsSucceeded > 0 then
    lengths ++ [goLen successLabel] else lengths
  let lengths := if s.UnitsFailed > 0 then
    lengths ++ [goLen failureLabel] else lengths
  let lengths := if s.EarlyExits > 0 then
    lengths ++ [goLen earlyExitLabel] else lengths
  let lengths := if s.Excluded > 0 then
    lengths ++ [goLen excludeLabel] else lengths
  let lengths := lengths.map (· + goLen prefixStr)
  let lengths := lengths.map (· + goLen separatorStr)
  slicesMax lengths

/-- The repeat count `strings.Repeat` receives in `Summary.padding`,
as the Go `int` subtraction (negative values make `strings.Repeat`
panic). -/
def Summary.paddingCount (s : Summary) (label : String) : Int :=
  (s.longestLineLength : Int) -
    ((goLen prefixStr : Int) + (goLen label : Int) + (goLen separatorStr : Int))

/-- The labels `Summary.Write` actually prints, in order: `Duration` and
`Units` always, then each per-result label guarded by its counter. -/
def Summary.writeLabels (s : Summary) : List String :=
  [durationLabel, unitsLabel]
    ++ (if s.UnitsSucceeded > 0 then [successLabel] else [])
    ++ (if s.UnitsFailed > 0 then [failureLabel] else [])
    ++ (if s.EarlyExits > 0 then [earlyExitLabel] else [])
    ++ (if s.Excluded > 0 then [excludeLabel] else [])

/-- The accumulator is a lower bound of a `max`-fold. -/
theorem init_le_foldl_max (l : List Nat) (acc : Nat) :
    acc ≤ l.foldl max acc := by
  induction l generalizing acc with
  | nil => exact le_refl _
  | cons z rest ih => exact le_trans (le_max_left acc z) (ih (max acc z))

/-- Every element of a list is at most its `max`-fold. -/
theorem le_foldl_max (l : List Nat) (acc x : Nat) (hx : x ∈ l) :
    x ≤ l.foldl max acc := by
  induction l generalizing acc with
  | nil => cases hx
  | cons y rest ih =>
    rcases List.mem_cons.mp hx with h | h
    · subst h
      exact le_trans (le_max_right acc x) (init_le_foldl_max rest _)
    · exact ih (max acc y) h

/-- `longestLineLength` maximizes exactly over the printed labels extended
by the prefix and separator lengths. -/
theorem longestLineLength_eq_writeLabels (s : Summary) :
    s.longestLineLength = slicesMax (s.writeLabels.map
      (fun label => goLen label + goLen prefixStr + goLen separatorStr)) := by
  by_cases h1 : s.UnitsSucceeded > 0 <;>
    by_cases h2 : s.UnitsFailed > 0 <;>
      by_cases h3 : s.EarlyExits > 0 <;>
        by_cases h4 : s.Excluded > 0 <;>
          simp [Summary.longestLineLength, Summary.writeLabels, h1, h2, h3, h4]

/-- Every element of a list is at most its `slicesMax`. -/
theorem le_slicesMax (l : List Nat) (x : Nat) (hx : x ∈ l) :
    x ≤ slicesMax l :=
  le_foldl_max l 0 x hx

/-! ## C9: summary rendering never panics in `strings.Repeat` -/

/-- **C9.** For every label that `Summary.Write` actually prints, the
repeat count computed in `Summary.padding` is non-negative, because
`longestLineLength` maximizes over the lengths of exactly the labels that
will be printed; hence `strings.Repeat` never panics. -/
theorem padding_count_nonneg (s : Summary) (label : String)
    (hmem : label ∈ s.writeLabels) : 0 ≤ s.paddingCount label := by
  have hle : goLen label + goLen prefixStr + goLen separatorStr ≤
      s.longestLineLength := by
    rw [longestLineLength_eq_writeLabels]
    exact le_slicesMax _ _ (List.mem_map_of_mem _ hmem)
  unfold Summary.paddingCount
  omega

/-- Witness for C9: a summary with one failed unit prints the `Failed`
label, whose padding count is non-negative. -/
theorem padding_count_nonneg_witness :
    failureLabel ∈ (Summary.writeLabels
      { firstRunStart := none, lastRunEnd := none, padder := " ",
        TotalUnits := 1, UnitsSucceeded := 0, UnitsFailed := 1,
        EarlyExits := 0, Excluded := 0, shouldColor := true }) ∧
    0 ≤ (Summary.paddingCount
      { firstRunStart := none, lastRunEnd := none, padder := " ",
        TotalUnits := 1, UnitsSucceeded := 0, UnitsFailed := 1,
        EarlyExits := 0, Excluded := 0, shouldColor := true } failureLabel) :=
  ⟨by decide, padding_count_nonneg _ _ (by decide)⟩

/-! ## Summarize (Go `Report.Summarize`, `Summary.Update`,
`Summary.TotalDuration`) -/

/-- The `switch run.Result` statement of `Summary.Update`: bump the
counter matching the result of the run (no counter for other strings). -/
def updateCounters (s : Summary) (run : Run) : Summary :=
  if run.Result == ResultSucceeded then
    { s with UnitsSucceeded := s.UnitsSucceeded + 1 }
  else if run.Result == ResultFailed then
    { s with UnitsFailed := s.UnitsFailed + 1 }
  else if run.Result == ResultEarlyExit then
    { s with EarlyExits := s.EarlyExits + 1 }
  else if run.Result == ResultExcluded then
    { s with Excluded := s.Excluded + 1 }
  else s

/-- The `firstRunStart` statement of `Summary.Update`: take `run.Started`
when unset or strictly earlier (`run.Started.Before`). -/
def updateFirst (s : Summary) (run : Run) : Summary :=
  match s.firstRunStart with
  | none => { s with firstRunStart := some run.Started }
  | some t =>
    if run.Started < t then { s with firstRunStart := some run.Started }
    else s

/-- The `lastRunEnd` statement of `Summary.Update`: take `run.Ended` when
unset or strictly later (`run.Ended.After`). -/
def updateLast (s : Summary) (run : Run) : Summary :=
  match s.lastRunEnd with
  | none => { s with lastRunEnd := some run.Ended }
  | some t =>
    if run.Ended > t then { s with lastRunEnd := some run.Ended }
    else s

/-- `Summary.Update`, composed of its three statements in source order. -/
def Summary.Update (s : Summary) (run : Run) : Summary :=
  updateLast (updateFirst (updateCounters s run) run) run

/-- Field accounting of the counter statement. -/
theorem updateCounters_fields (s : Summary) (run : Run) :
    (updateCounters s run).TotalUnits = s.TotalUnits ∧
    (updateCounters s run).UnitsSucceeded = s.UnitsSucceeded +
      (if run.Result == ResultSucceeded then 1 else 0) ∧
    (updateCounters s run).UnitsFailed = s.UnitsFailed +
      (if run.Result == ResultFailed then 1 else 0) ∧
    (updateCounters s run).EarlyExits = s.EarlyExits +
      (if run.Result == ResultEarlyExit then 1 else 0) ∧
    (updateCounters s run).Excluded = s.Excluded +
      (if run.Result == ResultExcluded then 1 else 0) ∧
    (updateCounters s run).firstRunStart = s.firstRunStart ∧
    (updateCounters s run).lastRunEnd = s.lastRunEnd := by
  unfold updateCounters
  split_ifs with h1 h2 h3 h4 <;>
    simp_all [ResultSucceeded, ResultFailed, ResultEarlyExit, ResultExcluded]

/-- Field accounting of the `firstRunStart` statement. -/
theorem updateFirst_fields (s : Summary) (run : Run) :
    (updateFirst s run).TotalUnits = s.TotalUnits ∧
    (updateFirst s run).UnitsSucceeded = s.UnitsSucceeded ∧
    (updateFirst s run).UnitsFailed = s.UnitsFailed ∧
    (updateFirst s run).EarlyExits = s.EarlyExits ∧
    (updateFirst s run).Excluded = s.Excluded ∧
    (updateFirst s run).firstRunStart =
      (match s.firstRunStart with
        | none => some run.Started
        | some t =>
          if run.Started < t then some run.Started else some t) ∧
    (updateFirst s run).lastRunEnd = s.lastRunEnd := by
  unfold updateFirst
  rcases hfs : s.firstRunStart with _ | a <;> simp [hfs] <;> split_ifs <;>
    simp [hfs]

/-- Field accounting of the `lastRunEnd` statement. -/
theorem updateLast_fields (s : Summary) (run : Run) :
    (updateLast s run).TotalUnits = s.TotalUnits ∧
    (updateLast s run).UnitsSucceeded = s.UnitsSucceeded ∧
    (updateLast s run).UnitsFailed = s.UnitsFailed ∧
    (updateLast s run).EarlyExits = s.EarlyExits ∧
    (updateLast s run).Excluded = s.Excluded ∧
    (updateLast s run).firstRunStart = s.firstRunStart ∧
    (updateLast s run).lastRunEnd =
      (match s.lastRunEnd with
        | none => some run.Ended
        | some t => if run.Ended > t then some run.Ended else some t) := by
  unfold updateLast
  rcases hle : s.lastRunEnd with _ | b <;> simp [hle] <;> split_ifs <;>
    simp [hle]

/-- Field accounting of one `Summary.Update` step. -/
theorem update_fields (s : Summary) (run : Run) :
    (Summary.Update s run).TotalUnits = s.TotalUnits ∧
    (Summary.Update s run).UnitsSucceeded = s.UnitsSucceeded +
      (if run.Result == ResultSucceeded then 1 else 0) ∧
    (Summary.Update s run).UnitsFailed = s.UnitsFailed +
      (if run.Result == ResultFailed then 1 else 0) ∧
    (Summary.Update s run).EarlyExits = s.EarlyExits +
      (if run.Result == ResultEarlyExit then 1 else 0) ∧
    (Summary.Update s run).Excluded = s.Excluded +
      (if run.Result == ResultExcluded then 1 else 0) ∧
    (Summary.Update s run).firstRunStart =
      (match s.firstRunStart with
        | none => some run.Started
        | some t =>
          if run.Started < t then some run.Started else some t) ∧
    (Summary.Update s run).lastRunEnd =
      (match s.lastRunEnd with
        | none => some run.Ended
        | some t => if run.Ended > t then some run.Ended else some t) := by
  obtain ⟨a1, a2, a3, a4, a5, a6, a7⟩ := updateCounters_fields s run
  obtain ⟨b1, b2, b3, b4, b5, b6, b7⟩ :=
    updateFirst_fields (updateCounters s run) run
  obtain ⟨c1, c2, c3, c4, c5, c6, c7⟩ :=
    updateLast_fields (updateFirst (updateCounters s run) run) run
  unfold Summary.Update
  refine ⟨?_, ?_, ?_, ?_, ?_, ?_, ?_⟩
  · rw [c1, b1, a1]
  · rw [c2, b2, a2]
  · rw [c3, b3, a3]
  · rw [c4, b4, a4]
  · rw [c5, b5, a5]
  · rw [c6, b6, a6]
  · rw [c7, b7, a7]

/-- The seed summary `Report.Summarize` builds before its loop: the run
count, the color toggle and the padder (overridden by the
`TMP_UNDOCUMENTED_REPORT_PADDER` environment value when non-empty, passed
here as `envPadder`). -/
def summarizeSeed (r : Report) (envPadder : String) : Summary :=
  let summary : Summary :=
    { firstRunStart := none, lastRunEnd := none, padder := " ",
      TotalUnits := r.Runs.length, UnitsSucceeded := 0, UnitsFailed := 0,
      EarlyExits := 0, Excluded := 0, shouldColor := r.shouldColor }
  if envPadder ≠ "" then { summary with padder := envPadder } else summary

/-- The loop of `Report.Summarize`: return the seed for an empty report,
else fold `Update` over the runs. -/
def Report.Summarize (r : Report) (envPadder : String) : Summary :=
  if r.Runs.length == 0 then summarizeSeed r envPadder
  else r.Runs.foldl Summary.Update (summarizeSeed r envPadder)

/-- `Summary.TotalDuration`: zero when either endpoint is unset, otherwise
`lastRunEnd − firstRunStart` (`time.Time.Sub`). -/
def Summary.TotalDuration (s : Summary) : Int :=
  match s.firstRunStart, s.lastRunEnd with
  | some a, some b => b - a
  | _, _ => 0

/-- The running minimum the `firstRunStart` field follows: take the value
when unset, replace it when strictly smaller. -/
def goMinFold (o : Option Int) (xs : List Int) : Option Int :=
  xs.foldl
    (fun o x =>
      match o with
      | none => some x
      | some t => if x < t then some x else some t) o

/-- The running maximum the `lastRunEnd` field follows. -/
def goMaxFold (o : Option Int) (xs : List Int) : Option Int :=
  xs.foldl
    (fun o x =>
      match o with
      | none => some x
      | some t => if x > t then some x else some t) o

/-- Folding `Update` tracks the counters, `TotalUnits`, and the running
minimum and maximum of the start and end times. -/
theorem update_foldl_fields (l : List Run) (s : Summary) :
    (l.foldl Summary.Update s).TotalUnits = s.TotalUnits ∧
    (l.foldl Summary.Update s).UnitsSucceeded = s.UnitsSucceeded +
      (l.filter (fun run => run.Result == ResultSucceeded)).length ∧
    (l.foldl Summary.Update s).UnitsFailed = s.UnitsFailed +
      (l.filter (fun run => run.Result == ResultFailed)).length ∧
    (l.foldl Summary.Update s).EarlyExits = s.EarlyExits +
      (l.filter (fun run => run.Result == ResultEarlyExit)).length ∧
    (l.foldl Summary.Update s).Excluded = s.Excluded +
      (l.filter (fun run => run.Result == ResultExcluded)).length ∧
    (l.foldl Summary.Update s).firstRunStart =
      goMinFold s.firstRunStart (l.map Run.Started) ∧
    (l.foldl Summary.Update s).lastRunEnd =
      goMaxFold s.lastRunEnd (l.map Run.Ended) := by
  induction l generalizing s with
  | nil => simp [goMinFold, goMaxFold]
  | cons run rest ih =>
    obtain ⟨h1, h2, h3, h4, h5, h6, h7⟩ := ih (Summary.Update s run)
    obtain ⟨g1, g2, g3, g4, g5, g6, g7⟩ := update_fields s run
    refine ⟨?_, ?_, ?_, ?_, ?_, ?_, ?_⟩ <;>
      simp only [List.foldl_cons, List.filter_cons, List.map_cons,
        goMinFold, goMaxFold, List.foldl_cons] at *
    · rw [h1, g1]
    · rw [h2, g2]
      by_cases hs : run.Result == ResultSucceeded <;> simp [hs] <;> omega
    · rw [h3, g3]
      by_cases hf : run.Result == ResultFailed <;> simp [hf] <;> omega
    · rw [h4, g4]
      by_cases he : run.Result == ResultEarlyExit <;> simp [he] <;> omega
    · rw [h5, g5]
      by_cases hx : run.Result == ResultExcluded <;> simp [hx] <;> omega
    · rw [h6, g6]
    · rw [h7, g7]

/-- A `goMinFold` from a set accumulator yields a defined minimum. -/
theorem goMinFold_some_spec (xs : List Int) (t : Int) :
    ∃ m, goMinFold (some t) xs = some m ∧ (m = t ∨ m ∈ xs) ∧ m ≤ t ∧
      ∀ y ∈ xs, m ≤ y := by
  induction xs generalizing t with
  | nil => exact ⟨t, rfl, Or.inl rfl, le_refl t, by intro y hy; cases hy⟩
  | cons x rest ih =>
    have hstep : goMinFold (some t) (x :: rest) =
        goMinFold (some (if x < t then x else t)) rest := by
      simp only [goMinFold, List.foldl_cons]
      split <;> rfl
    rcases ih (if x < t then x else t) with ⟨m, hm, hmem, hle, hall⟩
    refine ⟨m, hstep ▸ hm, ?_, ?_, ?_⟩
    · rcases hmem with h | h
      · by_cases hx : x < t
        · simp [hx] at h
          exact Or.inr (by simp [h])
        · simp [hx] at h
          exact Or.inl h
      · exact Or.inr (List.mem_cons_of_mem _ h)
    · by_cases hx : x < t
      · simp only [hx, if_true] at hle
        omega
      · simp only [hx, if_false] at hle
        exact hle
    · intro y hy
      rcases List.mem_cons.mp hy with h | h
      · subst h
        by_cases hx : y < t <;> simp only [hx, if_true, if_false] at hle <;>
          omega
      · exact hall y h

/-- A `goMaxFold` from a set accumulator yields a defined maximum. -/
theorem goMaxFold_some_spec (xs : List Int) (t : Int) :
    ∃ m, goMaxFold (some t) xs = some m ∧ (m = t ∨ m ∈ xs) ∧ t ≤ m ∧
      ∀ y ∈ xs, y ≤ m := by
  induction xs generalizing t with
  | nil => exact ⟨t, rfl, Or.inl rfl, le_refl t, by intro y hy; cases hy⟩
  | cons x rest ih =>
    have hstep : goMaxFold (some t) (x :: rest) =
        goMaxFold (some (if x > t then x else t)) rest := by
      simp only [goMaxFold, List.foldl_cons]
      split <;> rfl
    rcases ih (if x > t then x else t) with ⟨m, hm, hmem, hle, hall⟩
    refine ⟨m, hstep ▸ hm, ?_, ?_, ?_⟩
    · rcases hmem with h | h
      · by_cases hx : x > t
        · simp only [hx, if_true] at h
          exact Or.inr (by simp [h])
        · simp only [hx, if_false] at h
          exact Or.inl h
      · exact Or.inr (List.mem_cons_of_mem _ h)
    · by_cases hx : x > t <;> simp only [hx, if_true, if_false] at hle <;>
        omega
    · intro y hy
      rcases List.mem_cons.mp hy with h | h
      · subst h
        by_cases hx : y > t <;> simp only [hx, if_true, if_false] at hle <;>
          omega
      · exact hall y h

/-- The seed summary has zero counters and unset endpoints. -/
theorem summarizeSeed_fields (r : Report) (envPadder : String) :
    (summarizeSeed r envPadder).TotalUnits = r.Runs.length ∧
    (summarizeSeed r envPadder).UnitsSucceeded = 0 ∧
    (summarizeSeed r envPadder).UnitsFailed = 0 ∧
    (summarizeSeed r envPadder).EarlyExits = 0 ∧
    (summarizeSeed r envPadder).Excluded = 0 ∧
    (summarizeSeed r envPadder).firstRunStart = none ∧
    (summarizeSeed r envPadder).lastRunEnd = none := by
  unfold summarizeSeed
  split <;> simp

/-- **C5.** `Summarize` counts all runs in `TotalUnits`, counts each result
kind, records the minimum `Started` as first start and the maximum `Ended`
as last end, and reports `lastEnd − firstStart` as total duration, or `0`
for an empty report. -/
theorem summarize_spec (r : Report) (envPadder : String) :
    ((r.Summarize envPadder).TotalUnits = r.Runs.length ∧
     (r.Summarize envPadder).UnitsSucceeded =
       (r.Runs.filter (fun run => run.Result == ResultSucceeded)).length ∧
     (r.Summarize envPadder).UnitsFailed =
       (r.Runs.filter (fun run => run.Result == ResultFailed)).length ∧
     (r.Summarize envPadder).EarlyExits =
       (r.Runs.filter (fun run => run.Result == ResultEarlyExit)).length ∧
     (r.Summarize envPadder).Excluded =
       (r.Runs.filter (fun run => run.Result == ResultExcluded)).length) ∧
    (r.Runs ≠ [] →
      ∃ m M, (r.Summarize envPadder).firstRunStart = some m ∧
        (r.Summarize envPadder).lastRunEnd = some M ∧
        m ∈ r.Runs.map Run.Started ∧ (∀ x ∈ r.Runs.map Run.Started, m ≤ x) ∧
        M ∈ r.Runs.map Run.Ended ∧ (∀ x ∈ r.Runs.map Run.Ended, x ≤ M) ∧
        (r.Summarize envPadder).TotalDuration = M - m) ∧
    (r.Runs = [] → (r.Summarize envPadder).TotalDuration = 0) := by
  obtain ⟨k1, k2, k3, k4, k5, k6, k7⟩ := summarizeSeed_fields r envPadder
  rcases hruns : r.Runs with _ | ⟨run, rest⟩
  · have hempty : r.Summarize envPadder = summarizeSeed r envPadder := by
      unfold Report.Summarize
      rw [hruns]
      simp
    refine ⟨?_, by intro h; exact absurd rfl h, ?_⟩
    · rw [hempty]
      exact ⟨by rw [k1, hruns], by simp [k2], by simp [k3], by simp [k4],
        by simp [k5]⟩
    · intro _
      rw [hempty]
      unfold Summary.TotalDuration
      rw [k6]
  · have hform : r.Summarize envPadder =
        (run :: rest).foldl Summary.Update (summarizeSeed r envPadder) := by
      unfold Report.Summarize
      rw [hruns]
      simp
    obtain ⟨h1, h2, h3, h4, h5, h6, h7⟩ :=
      update_foldl_fields (run :: rest) (summarizeSeed r envPadder)
    refine ⟨⟨?_, ?_, ?_, ?_, ?_⟩, ?_, ?_⟩
    · rw [hform, h1, k1, hruns]
    · rw [hform, h2, k2]
      simp
    · rw [hform, h3, k3]
      simp
    · rw [hform, h4, k4]
      simp
    · rw [hform, h5, k5]
      simp
    · intro _
      have hmin : goMinFold none ((run :: rest).map Run.Started) =
          goMinFold (some run.Started) (rest.map Run.Started) := rfl
      have hmax : goMaxFold none ((run :: rest).map Run.Ended) =
          goMaxFold (some run.Ended) (rest.map Run.Ended) := rfl
      rcases goMinFold_some_spec (rest.map Run.Started) run.Started with
        ⟨m, hm, hmemm, hlem, hallm⟩
      rcases goMaxFold_some_spec (rest.map Run.Ended) run.Ended with
        ⟨M, hM, hmemM, hleM, hallM⟩
      have hfirst : (r.Summarize envPadder).firstRunStart = some m := by
        rw [hform, h6, k6, hmin, hm]
      have hlast : (r.Summarize envPadder).lastRunEnd = some M := by
        rw [hform, h7, k7, hmax, hM]
      refine ⟨m, M, hfirst, hlast, ?_, ?_, ?_, ?_, ?_⟩
      · rcases hmemm with h | h
        · simp [h]
        · exact List.mem_cons_of_mem _ h
      · intro x hx
        rcases List.mem_cons.mp hx with h | h
        · rw [h]
          exact hlem
        · exact hallm x h
      · rcases hmemM with h | h
        · simp [h]
        · exact List.mem_cons_of_mem _ h
      · intro x hx
        rcases List.mem_cons.mp hx with h | h
        · rw [h]
          exact hleM
        · exact hallM x h
      · unfold Summary.TotalDuration
        rw [hfirst, hlast]
    · intro h
      cases h

/-- Witness for C5 at a concrete two-run report. -/
theorem summarize_spec_witness :
    ({ Runs := [{ Started := 5, Ended := 9, Reason := none, Cause := none,
                  Name := "/a", Result := "succeeded" },
                { Started := 2, Ended := 4, Reason := none, Cause := none,
                  Name := "/b", Result := "failed" }],
       shouldColor := true } : Report).Runs ≠ [] ∧
    ∃ m M, (({ Runs := [{ Started := 5, Ended := 9, Reason := none,
                          Cause := none, Name := "/a",
                          Result := "succeeded" },
                        { Started := 2, Ended := 4, Reason := none,
                          Cause := none, Name := "/b", Result := "failed" }],
               shouldColor := true } : Report).Summarize "").firstRunStart =
        some m ∧
      (({ Runs := [{ Started := 5, Ended := 9, Reason := none, Cause := none,
                     Name := "/a", Result := "succeeded" },
                   { Started := 2, Ended := 4, Reason := none, Cause := none,
                     Name := "/b", Result := "failed" }],
          shouldColor := true } : Report).Summarize "").lastRunEnd = some M ∧
      m ∈ ({ Runs := [{ Started := 5, Ended := 9, Reason := none,
                        Cause := none, Name := "/a", Result := "succeeded" },
                      { Started := 2, Ended := 4, Reason := none,
                        Cause := none, Name := "/b", Result := "failed" }],
             shouldColor := true } : Report).Runs.map Run.Started ∧
      (∀ x ∈ ({ Runs := [{ Started := 5, Ended := 9, Reason := none,
                           Cause := none, Name := "/a",
                           Result := "succeeded" },
                         { Started := 2, Ended := 4, Reason := none,
                           Cause := none, Name := "/b", Result := "failed" }],
                shouldColor := true } : Report).Runs.map Run.Started,
        m ≤ x) ∧
      M ∈ ({ Runs := [{ Started := 5, Ended := 9, Reason := none,
                        Cause := none, Name := "/a", Result := "succeeded" },
                      { Started := 2, Ended := 4, Reason := none,
                        Cause := none, Name := "/b", Result := "failed" }],
             shouldColor := true } : Report).Runs.map Run.Ended ∧
      (∀ x ∈ ({ Runs := [{ Started := 5, Ended := 9, Reason := none,
                           Cause := none, Name := "/a",
                           Result := "succeeded" },
                         { Started := 2, Ended := 4, Reason := none,
                           Cause := none, Name := "/b", Result := "failed" }],
                shouldColor := true } : Report).Runs.map Run.Ended, x ≤ M) ∧
      (({ Runs := [{ Started := 5, Ended := 9, Reason := none, Cause := none,
                     Name := "/a", Result := "succeeded" },
                   { Started := 2, Ended := 4, Reason := none, Cause := none,
                     Name := "/b", Result := "failed" }],
          shouldColor := true } : Report).Summarize "").TotalDuration =
        M - m := by
  refine ⟨by decide, ?_⟩
  exact (summarize_spec
    { Runs := [{ Started := 5, Ended := 9, Reason := none, Cause := none,
                 Name := "/a", Result := "succeeded" },
               { Started := 2, Ended := 4, Reason := none, Cause := none,
                 Name := "/b", Result := "failed" }],
      shouldColor := true } "").2.1 (by decide)
/-! ## Tabular (CSV) export (Go `Report.WriteCSV`, stdlib `encoding/csv`)

`csv.NewWriter` is used with its defaults: comma separator and
`UseCRLF = false`, so records are terminated with a single `\n`. -/

/-- Left-pad a natural with zeros to the given width (Go `%0*d`). -/
def padNat (width n : Nat) : String :=
  let s := toString n
  if s.length < width then
    String.mk (List.replicate (width - s.length) '0') ++ s
  else s

/-- Civil date from days since the Unix epoch (the standard
days-from-civil inversion used by Go `time.Time.Date`): year, month, day. -/
def civilFromDays (z0 : Int) : Int × Nat × Nat :=
  let z := z0 + 719468
  let era := z.fdiv 146097
  let doe := (z - era * 146097).toNat
  let yoe := (doe - doe / 1460 + doe / 36524 - doe / 146096) / 365
  let doy := doe - (365 * yoe + yoe / 4 - yoe / 100)
  let mp := (5 * doy + 2) / 153
  let d := doy - (153 * mp + 2) / 5 + 1
  let m := if mp < 10 then mp + 3 else mp - 9
  let y := (era * 400 + yoe : Int) + (if m ≤ 2 then 1 else 0)
  (y, m, d)

/-- `time.Time.Format(time.RFC3339)` for an instant given as nanoseconds
since the epoch, rendered in a fixed-offset location of `offsetSec`
seconds (`Z` when the offset is zero). -/
def formatRFC3339 (offsetSec : Int) (unixNanos : Int) : String :=
  let totalSec := unixNanos.fdiv 1000000000
  let localSec := totalSec + offsetSec
  let days := localSec.fdiv 86400
  let secOfDay := (localSec - days * 86400).toNat
  let (y, m, d) := civilFromDays days
  let hh := secOfDay / 3600
  let mm := secOfDay % 3600 / 60
  let ss := secOfDay % 60
  let datePart := padNat 4 y.toNat ++ "-" ++ padNat 2 m ++ "-" ++ padNat 2 d
  let timePart := padNat 2 hh ++ ":" ++ padNat 2 mm ++ ":" ++ padNat 2 ss
  let zonePart :=
    if offsetSec == 0 then "Z"
    else
      (if offsetSec < 0 then "-" else "+") ++
        padNat 2 (offsetSec.natAbs / 3600) ++ ":" ++
        padNat 2 (offsetSec.natAbs % 3600 / 60)
  datePart ++ "T" ++ timePart ++ zonePart

/-- `unicode.IsSpace` (the Unicode `White_Space` property). -/
def runeIsSpaceGo (c : Char) : Bool :=
  c == ' ' || c == '\t' || c == '\n' || c == '\x0b' || c == '\x0c' ||
  c == '\r' || c.val == 0x85 || c.val == 0xa0 || c.val == 0x1680 ||
  (0x2000 ≤ c.val && c.val ≤ 0x200a) || c.val == 0x2028 ||
  c.val == 0x2029 || c.val == 0x202f || c.val == 0x205f || c.val == 0x3000

/-- `csv.Writer.fieldNeedsQuotes` with the default comma separator: quote
the PostgreSQL token, any field containing the separator, a quote or a
line break, and any field starting with a space character. -/
def fieldNeedsQuotes (field : String) : Bool :=
  if field == "" then false
  else if field == "\\." then true
  else if field.data.any
    (fun c => c == ',' || c == '"' || c == '\r' || c == '\n') then true
  else
    match field.data.head? with
    | some c => runeIsSpaceGo c
    | none => false

/-- The body of a quoted field as `csv.Writer.Write` emits it with
`UseCRLF = false`: quotes are doubled, bare `\r` and `\n` are passed
through. -/
def escapeQuoted (field : String) : String :=
  String.mk (field.data.flatMap (fun c => if c == '"' then ['"', '"'] else [c]))

/-- One field as `csv.Writer.Write` emits it. -/
def encodeField (field : String) : String :=
  if fieldNeedsQuotes field then "\"" ++ escapeQuoted field ++ "\"" else field

/-- One record as `csv.Writer.Write` emits it with `UseCRLF = false`:
comma-joined fields plus a `\n` terminator. -/
def csvWriteRecord (record : List String) : String :=
  String.intercalate "," (record.map encodeField) ++ "\n"

/-- The fixed header record of `Report.WriteCSV`. -/
def csvHeader : List String :=
  ["Name", "Started", "Ended", "Result", "Reason", "Cause"]

/-- The fields `Report.WriteCSV` writes for one run: name, RFC 3339
start and end, result, and the reason and cause or `""` when absent. -/
def runRecord (offsetSec : Int) (run : Run) : List String :=
  [run.Name, formatRFC3339 offsetSec run.Started,
   formatRFC3339 offsetSec run.Ended, run.Result,
   (match run.Reason with | some x => x | none => ""),
   (match run.Cause with | some x => x | none => "")]

/-- `Report.WriteCSV`: the header record followed by one record per run
in the current order of the report. -/
def Report.WriteCSV (r : Report) (offsetSec : Int) : String :=
  csvWriteRecord csvHeader ++
    String.join (r.Runs.map (fun run => csvWriteRecord (runRecord offsetSec run)))

/-- Modelled from the spec: the tabular format it describes — the fixed
header record then one record per run in the current order, fields
comma-separated with CSV quoting, timestamps RFC 3339, absent reason and
cause as empty strings — parameterized by the record terminator so that
the CRLF wording of the claim and the LF behavior of the code can be
compared. -/
def specTabular (terminator : String) (r : Report) (offsetSec : Int) :
    String :=
  String.join ((csvHeader :: r.Runs.map (runRecord offsetSec)).map
    (fun rec => String.intercalate "," (rec.map encodeField) ++ terminator))

/-- `String.join` distributes over cons. -/
theorem string_join_cons (s : String) (l : List String) :
    String.join (s :: l) = s ++ String.join l := by
  have haux : ∀ (l : List String) (a b : String),
      l.foldl (· ++ ·) (a ++ b) = a ++ l.foldl (· ++ ·) b := by
    intro l
    induction l with
    | nil => intro a b; rfl
    | cons x rest ih =>
      intro a b
      simp only [List.foldl_cons]
      rw [String.append_assoc, ih]
  show (s :: l).foldl (· ++ ·) "" = s ++ l.foldl (· ++ ·) ""
  simp only [List.foldl_cons]
  have : ("" : String) ++ s = s ++ "" := by simp
  rw [this, haux]

/-- **C4 (counterexample).** The CRLF form the claim describes differs
from what `WriteCSV` emits, already on the empty report: the header record
is terminated by a bare `\n`. -/
theorem writeCSV_crlf_counterexample :
    Report.WriteCSV NewReport 0 ≠ specTabular "\r\n" NewReport 0 ∧
    Report.WriteCSV NewReport 0 = "Name,Started,Ended,Result,Reason,Cause\n" := by
  constructor
  · intro h
    have : ("Name,Started,Ended,Result,Reason,Cause\n" : String) =
        "Name,Started,Ended,Result,Reason,Cause\r\n" := by
      have h1 : Report.WriteCSV NewReport 0 =
          "Name,Started,Ended,Result,Reason,Cause\n" := by decide
      have h2 : specTabular "\r\n" NewReport 0 =
          "Name,Started,Ended,Result,Reason,Cause\r\n" := by decide
      rw [← h1, ← h2]
      exact h
    exact absurd this (by decide)
  · decide

/-- **C4 (amended).** `WriteCSV` emits exactly the tabular format of the
spec — fixed header record, one record per run in the current report
order, CSV-quoted comma-separated fields, RFC 3339 timestamps, empty
strings for absent reason or cause — with records terminated by `\n`
(the `encoding/csv` default), not `\r\n`. -/
theorem writeCSV_eq_specTabular_lf (r : Report) (offsetSec : Int) :
    Report.WriteCSV r offsetSec = specTabular "\n" r offsetSec := by
  unfold Report.WriteCSV specTabular
  rw [List.map_cons, string_join_cons, List.map_map]
  rfl

/-! ## SortRuns (Go `slices.SortFunc`, a pattern-defeating quicksort)

`Report.SortRuns` calls `slices.SortFunc`, whose documented contract does
NOT guarantee stability.  The implementation (Go standard library
`pdqsortCmpFunc` and helpers) is ported here verbatim over lists with
explicit index access; array mutation becomes functional update.  Loops
whose termination argument is indirect take a fuel argument documented
with a bound that the Go loop never exceeds, so the fuel never runs out
on the call paths used. -/

/-- Indexed read, `data[i]` (always in bounds in the ported code). -/
def lget [Inhabited α] (l : List α) (i : Nat) : α := l.getD i default

/-- `data[i], data[j] = data[j], data[i]` (always in bounds in the ported
code; out of bounds is the identity). -/
def lswap [Inhabited α] (l : List α) (i j : Nat) : List α :=
  if i < l.length ∧ j < l.length then (l.set i (lget l j)).set j (lget l i)
  else l

/-- The inner loop of `insertionSortCmpFunc`:
`for j := i; j > a && cmp(data[j], data[j-1]) < 0; j--`, swapping
adjacent elements. -/
def insertInner [Inhabited α] (cmp : α → α → Int) (l : List α) (a : Nat) :
    Nat → List α
  | 0 => l
  | j + 1 =>
    if a ≤ j ∧ cmp (lget l (j + 1)) (lget l j) < 0 then
      insertInner cmp (lswap l (j + 1) j) a j
    else l

/-- The outer loop of `insertionSortCmpFunc`: `for i := a + 1; i < b; i++`
(structurally recursive on a fuel bound of the remaining iterations, so
it evaluates in the kernel; `fuel = b` always suffices). -/
def insertionSortLoop [Inhabited α] (cmp : α → α → Int) (a b : Nat) :
    List α → Nat → Nat → List α
  | l, _, 0 => l
  | l, i, fuel + 1 =>
    if i < b then
      insertionSortLoop cmp a b (insertInner cmp l a i) (i + 1) fuel
    else l

/-- `insertionSortCmpFunc`: insertion sort of `data[a:b]`. -/
def insertionSortCmpFunc [Inhabited α] (cmp : α → α → Int) (l : List α)
    (a b : Nat) : List α :=
  insertionSortLoop cmp a b l (a + 1) b

/-- `siftDownCmpFunc`: implements the heap property on `data[lo:hi]`.
The loop moves `root` strictly down the heap, so its iteration count is
bounded by `hi`; `fuel = hi` therefore suffices. -/
def siftDownLoop [Inhabited α] (cmp : α → α → Int) (l : List α)
    (hi first : Nat) : Nat → Nat → List α
  | _, 0 => l
  | root, fuel + 1 =>
    let child := 2 * root + 1
    if child ≥ hi then l
    else
      let child :=
        if child + 1 < hi ∧
            cmp (lget l (first + child)) (lget l (first + child + 1)) < 0
        then child + 1 else child
      if ¬ (cmp (lget l (first + root)) (lget l (first + child)) < 0) then l
      else
        siftDownLoop cmp (lswap l (first + root) (first + child)) hi first
          child fuel

/-- `siftDownCmpFunc(data, lo, hi, first)`. -/
def siftDownCmpFunc [Inhabited α] (cmp : α → α → Int) (l : List α)
    (lo hi first : Nat) : List α :=
  siftDownLoop cmp l hi first lo hi

/-- The heap-building countdown loop of `heapSortCmpFunc`:
`for i := (hi - 1) / 2; i >= 0; i--`. -/
def heapBuild [Inhabited α] (cmp : α → α → Int) (hi first : Nat) :
    List α → Nat → List α
  | l, 0 => siftDownCmpFunc cmp l 0 hi first
  | l, i + 1 => heapBuild cmp hi first (siftDownCmpFunc cmp l (i + 1) hi first) i

/-- The pop countdown loop of `heapSortCmpFunc`:
`for i := hi - 1; i >= 0; i--`. -/
def heapPop [Inhabited α] (cmp : α → α → Int) (first : Nat) :
    List α → Nat → List α
  | l, 0 => siftDownCmpFunc cmp (lswap l first (first + 0)) 0 0 first
  | l, i + 1 =>
    heapPop cmp first
      (siftDownCmpFunc cmp (lswap l first (first + (i + 1))) 0 (i + 1) first) i

/-- `heapSortCmpFunc`: heapsort of `data[a:b]` (only reached by `pdqsort`
when `b - a > 12`, so the Go countdown indices stay non-negative). -/
def heapSortCmpFunc [Inhabited α] (cmp : α → α → Int) (l : List α)
    (a b : Nat) : List α :=
  let first := a
  let hi := b - a
  let l := heapBuild cmp hi first l ((hi - 1) / 2)
  if hi = 0 then l else heapPop cmp first l (hi - 1)

/-- The advancing `i` loop of `partitionCmpFunc`:
`for i <= j && cmp(data[i], data[a]) < 0 { i++ }` (fuel-bounded; the loop
runs at most `j + 1 - i` times, so `fuel = j + 1` suffices). -/
def partAdvanceILoop [Inhabited α] (cmp : α → α → Int) (l : List α) (a : Nat)
    (j : Nat) : Nat → Nat → Nat
  | i, 0 => i
  | i, fuel + 1 =>
    if i ≤ j ∧ cmp (lget l i) (lget l a) < 0 then
      partAdvanceILoop cmp l a j (i + 1) fuel
    else i

/-- Entry point of the advancing `i` loop. -/
def partAdvanceI [Inhabited α] (cmp : α → α → Int) (l : List α)
    (a i j : Nat) : Nat :=
  partAdvanceILoop cmp l a j i (j + 1)

/-- The retreating `j` loop of `partitionCmpFunc`:
`for i <= j && !(cmp(data[j], data[a]) < 0) { j-- }` (the Go `j` never
goes below `i - 1 ≥ a ≥ 0`). -/
def partRetreatJ [Inhabited α] (cmp : α → α → Int) (l : List α) (a i : Nat) :
    Nat → Nat
  | 0 => 0
  | j + 1 =>
    if i ≤ j + 1 ∧ ¬ (cmp (lget l (j + 1)) (lget l a) < 0) then
      partRetreatJ cmp l a i j
    else j + 1

/-- The main exchange loop of `partitionCmpFunc`.  Each iteration strictly
shrinks `j - i`, so `fuel = b` suffices. -/
def partitionLoop [Inhabited α] (cmp : α → α → Int) (a : Nat) :
    List α → Nat → Nat → Nat → Nat × List α
  | l, i, j, 0 => (j, lswap l j a)
  | l, i, j, fuel + 1 =>
    let i := partAdvanceI cmp l a i j
    let j := partRetreatJ cmp l a i j
    if i > j then (j, lswap l j a)
    else partitionLoop cmp a (lswap l i j) (i + 1) (j - 1) fuel

/-- `partitionCmpFunc(data, a, b, pivot)`: one quicksort partition;
returns the new pivot index, whether the range was already partitioned,
and the permuted data. -/
def partitionCmpFunc [Inhabited α] (cmp : α → α → Int) (l : List α)
    (a b pivot : Nat) : Nat × Bool × List α :=
  let l := lswap l a pivot
  let i := a + 1
  let j := b - 1
  let i := partAdvanceI cmp l a i j
  let j := partRetreatJ cmp l a i j
  if i > j then (j, true, lswap l j a)
  else
    let l := lswap l i j
    let (newpivot, l) := partitionLoop cmp a l (i + 1) (j - 1) b
    (newpivot, false, l)

/-- The advancing `i` loop of `partitionEqualCmpFunc`:
`for i <= j && !(cmp(data[a], data[i]) < 0) { i++ }` (fuel-bounded as for
`partAdvanceILoop`). -/
def partEqAdvanceILoop [Inhabited α] (cmp : α → α → Int) (l : List α)
    (a : Nat) (j : Nat) : Nat → Nat → Nat
  | i, 0 => i
  | i, fuel + 1 =>
    if i ≤ j ∧ ¬ (cmp (lget l a) (lget l i) < 0) then
      partEqAdvanceILoop cmp l a j (i + 1) fuel
    else i

/-- Entry point of the advancing `i` loop of `partitionEqualCmpFunc`. -/
def partEqAdvanceI [Inhabited α] (cmp : α → α → Int) (l : List α)
    (a i j : Nat) : Nat :=
  partEqAdvanceILoop cmp l a j i (j + 1)

/-- The retreating `j` loop of `partitionEqualCmpFunc`:
`for i <= j && cmp(data[a], data[j]) < 0 { j-- }`. -/
def partEqRetreatJ [Inhabited α] (cmp : α → α → Int) (l : List α) (a i : Nat) :
    Nat → Nat
  | 0 => 0
  | j + 1 =>
    if i ≤ j + 1 ∧ cmp (lget l a) (lget l (j + 1)) < 0 then
      partEqRetreatJ cmp l a i j
    else j + 1

/-- The loop of `partitionEqualCmpFunc`.  Each iteration strictly shrinks
`j - i`, so `fuel = b` suffices. -/
def partitionEqualLoop [Inhabited α] (cmp : α → α → Int) (a : Nat) :
    List α → Nat → Nat → Nat → Nat × List α
  | l, i, _, 0 => (i, l)
  | l, i, j, fuel + 1 =>
    let i := partEqAdvanceI cmp l a i j
    let j := partEqRetreatJ cmp l a i j
    if i > j then (i, l)
    else partitionEqualLoop cmp a (lswap l i j) (i + 1) (j - 1) fuel

/-- `partitionEqualCmpFunc(data, a, b, pivot)`: groups elements equal to
the pivot at the front of the range; returns the first index past them. -/
def partitionEqualCmpFunc [Inhabited α] (cmp : α → α → Int) (l : List α)
    (a b pivot : Nat) : Nat × List α :=
  let l := lswap l a pivot
  partitionEqualLoop cmp a l (a + 1) (b - 1) b

/-- The advancing scan of `partialInsertionSortCmpFunc`:
`for i < b && !(cmp(data[i], data[i-1]) < 0) { i++ }` (fuel-bounded; the
loop runs at most `b - i` times, so `fuel = b` suffices). -/
def partialAdvanceLoop [Inhabited α] (cmp : α → α → Int) (l : List α)
    (b : Nat) : Nat → Nat → Nat
  | i, 0 => i
  | i, fuel + 1 =>
    if i < b ∧ ¬ (cmp (lget l i) (lget l (i - 1)) < 0) then
      partialAdvanceLoop cmp l b (i + 1) fuel
    else i

/-- Entry point of the advancing scan. -/
def partialAdvance [Inhabited α] (cmp : α → α → Int) (l : List α)
    (b i : Nat) : Nat :=
  partialAdvanceLoop cmp l b i b

/-- The leftward shift of `partialInsertionSortCmpFunc`:
`for j := i - 1; j >= 1; j--`, stopping at the first ordered pair. -/
def partialShiftLeft [Inhabited α] (cmp : α → α → Int) :
    List α → Nat → List α
  | l, 0 => l
  | l, j + 1 =>
    if ¬ (cmp (lget l (j + 1)) (lget l j) < 0) then l
    else partialShiftLeft cmp (lswap l (j + 1) j) j

/-- The rightward shift of `partialInsertionSortCmpFunc`:
`for j := i + 1; j < b; j++`, stopping at the first ordered pair
(fuel-bounded; `fuel = b` suffices). -/
def partialShiftRightLoop [Inhabited α] (cmp : α → α → Int) (b : Nat) :
    List α → Nat → Nat → List α
  | l, _, 0 => l
  | l, j, fuel + 1 =>
    if j < b then
      if ¬ (cmp (lget l j) (lget l (j - 1)) < 0) then l
      else partialShiftRightLoop cmp b (lswap l j (j - 1)) (j + 1) fuel
    else l

/-- Entry point of the rightward shift. -/
def partialShiftRight [Inhabited α] (cmp : α → α → Int) (l : List α)
    (b j : Nat) : List α :=
  partialShiftRightLoop cmp b l j b

/-- The `maxSteps` loop of `partialInsertionSortCmpFunc`. -/
def partialInsertionLoop [Inhabited α] (cmp : α → α → Int) (a b : Nat) :
    List α → Nat → Nat → Bool × List α
  | l, _, 0 => (false, l)
  | l, i, steps + 1 =>
    let i := partialAdvance cmp l b i
    if i = b then (true, l)
    else if b - a < 50 then (false, l)
    else
      let l := lswap l i (i - 1)
      let l := if i - a ≥ 2 then partialShiftLeft cmp l (i - 1) else l
      let l := if b - i ≥ 2 then partialShiftRight cmp l b (i + 1) else l
      partialInsertionLoop cmp a b l i steps

/-- `partialInsertionSortCmpFunc(data, a, b)`: partially sorts the range,
returning whether it is fully sorted afterwards (`maxSteps = 5`,
`shortestShifting = 50`). -/
def partialInsertionSortCmpFunc [Inhabited α] (cmp : α → α → Int)
    (l : List α) (a b : Nat) : Bool × List α :=
  partialInsertionLoop cmp a b l (a + 1) 5

/-- One step of the Go `xorshift` generator over `uint64`. -/
def xorshiftNext (r : Nat) : Nat :=
  let r := (Nat.xor r ((r <<< 13) % 2 ^ 64)) % 2 ^ 64
  let r := (Nat.xor r (r >>> 7)) % 2 ^ 64
  let r := (Nat.xor r ((r <<< 17) % 2 ^ 64)) % 2 ^ 64
  r

/-- Structural halving recursion for `bits.Len` (`fuel = n` suffices
since `log2 n < n`). -/
def bitsLenAux : Nat → Nat → Nat
  | _, 0 => 0
  | n, fuel + 1 => if n = 0 then 0 else bitsLenAux (n / 2) fuel + 1

/-- Go `bits.Len`: bits needed to represent `n`. -/
def bitsLen (n : Nat) : Nat := bitsLenAux n n

/-- `nextPowerOfTwo(length) = 1 << bits.Len(uint(length))`. -/
def nextPowerOfTwo (length : Nat) : Nat := 1 <<< bitsLen length

/-- The three swaps of `breakPatternsCmpFunc`, carrying the generator. -/
def breakPatternsSwaps [Inhabited α] (a length modulus idx : Nat) :
    List α → Nat → Nat → List α
  | l, _, 0 => l
  | l, random, k + 1 =>
    let random := xorshiftNext random
    let other := Nat.land random (modulus - 1)
    let other := if other ≥ length then other - length else other
    breakPatternsSwaps a length modulus idx
      (lswap l (idx - 1 + (3 - (k + 1))) (a + other)) random k

/-- `breakPatternsCmpFunc(data, a, b)`: scatters three elements using the
xorshift generator seeded with the length (only when `length ≥ 8`). -/
def breakPatternsCmpFunc [Inhabited α] (l : List α) (a b : Nat) : List α :=
  let length := b - a
  if length ≥ 8 then
    let random := length
    let modulus := nextPowerOfTwo length
    let idx := a + length / 4 * 2 - 1
    breakPatternsSwaps a length modulus idx l random 3
  else l

/-- The sortedness hints of the Go pivot chooser. -/
inductive SortedHint where
  | unknown
  | increasing
  | decreasing
  deriving Repr, DecidableEq

/-- `order2CmpFunc`: order two indices by their elements, counting swaps. -/
def order2CmpFunc [Inhabited α] (cmp : α → α → Int) (l : List α)
    (a b swaps : Nat) : Nat × Nat × Nat :=
  if cmp (lget l b) (lget l a) < 0 then (b, a, swaps + 1) else (a, b, swaps)

/-- `medianCmpFunc`: index of the median of three elements, counting
swaps. -/
def medianCmpFunc [Inhabited α] (cmp : α → α → Int) (l : List α)
    (a b c swaps : Nat) : Nat × Nat :=
  let (a, b, swaps) := order2CmpFunc cmp l a b swaps
  let (b, _, swaps) := order2CmpFunc cmp l b c swaps
  let (_, b, swaps) := order2CmpFunc cmp l a b swaps
  (b, swaps)

/-- `medianAdjacentCmpFunc`: median of `data[a-1], data[a], data[a+1]`. -/
def medianAdjacentCmpFunc [Inhabited α] (cmp : α → α → Int) (l : List α)
    (a swaps : Nat) : Nat × Nat :=
  medianCmpFunc cmp l (a - 1) a (a + 1) swaps

/-- `choosePivotCmpFunc(data, a, b)`: static pivot below eight elements,
median of three up to fifty, Tukey ninther beyond, with the swap count
deciding the sortedness hint (`maxSwaps = 12`). -/
def choosePivotCmpFunc [Inhabited α] (cmp : α → α → Int) (l : List α)
    (a b : Nat) : Nat × SortedHint :=
  let len := b - a
  let i := a + len / 4 * 1
  let j := a + len / 4 * 2
  let k := a + len / 4 * 3
  let (j, swaps) :=
    if len ≥ 8 then
      let (i, j, k, swaps) :=
        if len ≥ 50 then
          let (i, swaps) := medianAdjacentCmpFunc cmp l i 0
          let (j, swaps) := medianAdjacentCmpFunc cmp l j swaps
          let (k, swaps) := medianAdjacentCmpFunc cmp l k swaps
          (i, j, k, swaps)
        else (i, j, k, 0)
      medianCmpFunc cmp l i j k swaps
    else (j, 0)
  if swaps = 0 then (j, .increasing)
  else if swaps = 12 then (j, .decreasing)
  else (j, .unknown)

/-- The swap loop of `reverseRangeCmpFunc`: `i` and `j` move inward
(fuel-bounded; `fuel = b` suffices). -/
def reverseRangeLoop [Inhabited α] : List α → Nat → Nat → Nat → List α
  | l, _, _, 0 => l
  | l, i, j, fuel + 1 =>
    if i < j then reverseRangeLoop (lswap l i j) (i + 1) (j - 1) fuel
    else l

/-- `reverseRangeCmpFunc(data, a, b)`: reverse `data[a:b]` by swapping
ends inward (`i := a; j := b - 1`). -/
def reverseRangeCmpFunc [Inhabited α] (l : List α) (a b : Nat) : List α :=
  reverseRangeLoop l a (b - 1) b

/-- `pdqsortCmpFunc(data, a, b, limit)`: the pattern-defeating quicksort
of the Go standard library, with `maxInsertion = 12`.  The Go function
keeps `wasBalanced`/`wasPartitioned` across its `for` loop iterations and
resets them on recursive calls; the loop is modelled by tail recursion
carrying both flags, and a recursive call restarts with both `true`.
Every loop iteration and recursive call strictly shrinks `b - a`, so
`fuel = b - a + 1` at the top level never runs out. -/
def pdqsortLoop [Inhabited α] (cmp : α → α → Int) :
    List α → Nat → Nat → Nat → Bool → Bool → Nat → List α
  | l, _, _, _, _, _, 0 => l
  | l, a, b, limit, wasBalanced, wasPartitioned, fuel + 1 =>
    let length := b - a
    if length ≤ 12 then insertionSortCmpFunc cmp l a b
    else if limit = 0 then heapSortCmpFunc cmp l a b
    else
      let (l, limit) :=
        if ¬ wasBalanced then (breakPatternsCmpFunc l a b, limit - 1)
        else (l, limit)
      let (pivot, hint) := choosePivotCmpFunc cmp l a b
      let (l, pivot, hint) :=
        if hint = SortedHint.decreasing then
          (reverseRangeCmpFunc l a b, (b - 1) - (pivot - a),
           SortedHint.increasing)
        else (l, pivot, hint)
      let (l, stop) :=
        if wasBalanced ∧ wasPartitioned ∧ hint = SortedHint.increasing then
          let (sorted, l2) := partialInsertionSortCmpFunc cmp l a b
          (l2, sorted)
        else (l, false)
      if stop then l
      else
        if a > 0 ∧ ¬ (cmp (lget l (a - 1)) (lget l pivot) < 0) then
          let (mid, l) := partitionEqualCmpFunc cmp l a b pivot
          pdqsortLoop cmp l mid b limit wasBalanced wasPartitioned fuel
        else
          let (mid, alreadyPartitioned, l) := partitionCmpFunc cmp l a b pivot
          let wasPartitioned := alreadyPartitioned
          let leftLen := mid - a
          let rightLen := b - mid
          let balanceThreshold := length / 8
          let wasBalanced := min leftLen rightLen ≥ balanceThreshold
          if leftLen < rightLen then
            let l := pdqsortLoop cmp l a mid limit true true fuel
            pdqsortLoop cmp l (mid + 1) b limit wasBalanced wasPartitioned fuel
          else
            let l := pdqsortLoop cmp l (mid + 1) b limit true true fuel
            pdqsortLoop cmp l a mid limit wasBalanced wasPartitioned fuel

/-- `pdqsortCmpFunc` entry: fresh flags and sufficient fuel. -/
def pdqsortCmpFunc [Inhabited α] (cmp : α → α → Int) (l : List α)
    (a b limit : Nat) : List α :=
  pdqsortLoop cmp l a b limit true true (b - a + 1)

/-- `slices.SortFunc(x, cmp)`: `pdqsortCmpFunc(x, 0, n, bits.Len(n))`. -/
def slicesSortFunc [Inhabited α] (cmp : α → α → Int) (l : List α) : List α :=
  pdqsortCmpFunc cmp l 0 l.length (bitsLen l.length)

/-- `a.Started.Compare(b.Started)` (`time.Time.Compare`). -/
def cmpRunStarted (a b : Run) : Int :=
  if a.Started < b.Started then -1 else if b.Started < a.Started then 1 else 0

instance : Inhabited Run :=
  ⟨{ Started := 0, Ended := 0, Reason := none, Cause := none, Name := "",
     Result := "" }⟩

/-- `Report.SortRuns`: `slices.SortFunc(r.Runs, Started comparison)`. -/
def Report.SortRuns (r : Report) : Report :=
  { r with Runs := slicesSortFunc cmpRunStarted r.Runs }

/-- A run with only a name and a start time, for the sort examples. -/
def mkRun (n : String) (s : Int) : Run :=
  { Started := s, Ended := 0, Reason := none, Cause := none, Name := n,
    Result := "" }

/-- A thirteen-run report: one late run followed by twelve runs that all
share the same `Started`. -/
def reportThirteen : Report :=
  { Runs := [mkRun "/a" 1, mkRun "/b" 0, mkRun "/c" 0, mkRun "/d" 0,
             mkRun "/e" 0, mkRun "/f" 0, mkRun "/g" 0, mkRun "/h" 0,
             mkRun "/i" 0, mkRun "/j" 0, mkRun "/k" 0, mkRun "/l" 0,
             mkRun "/m" 0], shouldColor := true }

/-- **C2 (counterexample).** `SortRuns` is not a stable sort: in
`reportThirteen`, the runs named `/b` and `/g` have equal `Started` and
`/b` precedes `/g`, yet after `SortRuns` the report lists `/g` first —
`slices.SortFunc` (pattern-defeating quicksort) reorders equal elements
once the range exceeds the insertion-sort cutoff of twelve. -/
theorem sortRuns_not_stable_counterexample :
    ((reportThirteen.Runs.get? 1).map Run.Name = some "/b" ∧
     (reportThirteen.Runs.get? 6).map Run.Name = some "/g" ∧
     (reportThirteen.Runs.get? 1).map Run.Started = some 0 ∧
     (reportThirteen.Runs.get? 6).map Run.Started = some 0) ∧
    (Report.SortRuns reportThirteen).Runs.map Run.Name =
      ["/g", "/b", "/c", "/d", "/e", "/f", "/h", "/i", "/j", "/k", "/l",
       "/m", "/a"] ∧
    ¬ (((Report.SortRuns reportThirteen).Runs.map Run.Name).indexOf "/b" <
       ((Report.SortRuns reportThirteen).Runs.map Run.Name).indexOf "/g") := by
  set_option maxRecDepth 100000 in
  refine ⟨by decide, by decide, by decide⟩

/-! ### The insertion-sort path of `SortRuns`

For ranges of at most `maxInsertion = 12` elements, `pdqsortCmpFunc`
immediately runs `insertionSortCmpFunc`, an adjacent-swap insertion sort.
It is shown equivalent to a structural stable insertion sort and thereby
sorted, stable and a permutation. -/

/-- One leftward bubble over the reversed sorted prefix: keep passing `x`
over elements it compares strictly below, mirroring the inner loop of
`insertionSortCmpFunc`. -/
def bubbleRev (cmp : α → α → Int) (x : α) : List α → List α
  | [] => [x]
  | y :: ys => if cmp x y < 0 then y :: bubbleRev cmp x ys else x :: y :: ys

/-- Insert `x` into the sorted prefix `P` (kept in order), the list-level
effect of one outer-loop step of `insertionSortCmpFunc`. -/
def sortStep (cmp : α → α → Int) (P : List α) (x : α) : List α :=
  (bubbleRev cmp x P.reverse).reverse

/-- The structural stable insertion sort equal to
`insertionSortCmpFunc _ 0 length`. -/
def stableInsertionSort (cmp : α → α → Int) (l : List α) : List α :=
  (l.foldl (fun accRev x => bubbleRev cmp x accRev) []).reverse

/-- `lget` past an append prefix. -/
theorem lget_append_right [Inhabited α] (P l' : List α) (k : Nat) :
    lget (P ++ l') (P.length + k) = lget l' k := by
  induction P with
  | nil => simp [lget]
  | cons a rest ih =>
    simp only [lget, List.cons_append, List.length_cons]
    rw [Nat.succ_add]
    simpa [lget] using ih

/-- `lget` at the length of an append prefix. -/
theorem lget_append_len [Inhabited α] (P : List α) (x : α) (rest : List α) :
    lget (P ++ x :: rest) P.length = x := by
  have := lget_append_right P (x :: rest) 0
  simpa [lget] using this

/-- `List.set` past an append prefix. -/
theorem set_append_right (P l' : List α) (k : Nat) (v : α) :
    (P ++ l').set (P.length + k) v = P ++ l'.set k v := by
  induction P with
  | nil => simp
  | cons a rest ih =>
    simp only [List.cons_append, List.length_cons]
    rw [Nat.succ_add]
    simp only [List.set]
    rw [ih]

/-- The adjacent swap the insertion-sort inner loop performs, at the list
level. -/
theorem lswap_adjacent [Inhabited α] (P : List α) (y x : α) (rest : List α) :
    lswap (P ++ y :: x :: rest) (P.length + 1) P.length =
      P ++ x :: y :: rest := by
  have hlen : (P ++ y :: x :: rest).length = P.length + (rest.length + 2) := by
    simp only [List.length_append, List.length_cons]
  have hcond : P.length + 1 < (P ++ y :: x :: rest).length ∧
      P.length < (P ++ y :: x :: rest).length := by
    rw [hlen]
    omega
  have hy : lget (P ++ y :: x :: rest) P.length = y := lget_append_len P y _
  have hx : lget (P ++ y :: x :: rest) (P.length + 1) = x := by
    have := lget_append_right P (y :: x :: rest) 1
    simpa [lget] using this
  unfold lswap
  rw [if_pos hcond, hy, hx]
  have h1 : (P ++ y :: x :: rest).set (P.length + 1) y =
      P ++ y :: y :: rest := by
    rw [set_append_right]
    rfl
  rw [h1]
  have h2 : (P ++ y :: y :: rest).set (P.length + 0) x =
      P ++ x :: y :: rest := by
    rw [set_append_right]
    rfl
  simpa using h2

/-- The inner loop of `insertionSortCmpFunc` bubbles the element at the
end of the prefix into place: list-level decomposition. -/
theorem insertInner_decomp [Inhabited α] (cmp : α → α → Int) (P : List α)
    (x : α) (rest : List α) :
    insertInner cmp (P ++ x :: rest) 0 P.length =
      (bubbleRev cmp x P.reverse).reverse ++ rest := by
  induction P using List.reverseRecOn generalizing x rest with
  | nil => simp [insertInner, bubbleRev]
  | append_singleton P₀ y ih =>
    have hlen : (P₀ ++ [y]).length = P₀.length + 1 := by simp
    rw [hlen]
    have hl : P₀ ++ [y] ++ x :: rest = P₀ ++ y :: x :: rest := by simp
    rw [hl]
    show (if 0 ≤ P₀.length ∧
        cmp (lget (P₀ ++ y :: x :: rest) (P₀.length + 1))
          (lget (P₀ ++ y :: x :: rest) P₀.length) < 0 then
      insertInner cmp
        (lswap (P₀ ++ y :: x :: rest) (P₀.length + 1) P₀.length) 0 P₀.length
      else P₀ ++ y :: x :: rest) =
      (bubbleRev cmp x (P₀ ++ [y]).reverse).reverse ++ rest
    have hy : lget (P₀ ++ y :: x :: rest) P₀.length = y := lget_append_len _ _ _
    have hx : lget (P₀ ++ y :: x :: rest) (P₀.length + 1) = x := by
      have := lget_append_right P₀ (y :: x :: rest) 1
      simpa [lget] using this
    rw [hy, hx]
    have hrev : (P₀ ++ [y]).reverse = y :: P₀.reverse := by simp
    rw [hrev]
    by_cases hcmp : cmp x y < 0
    · rw [if_pos ⟨Nat.zero_le _, hcmp⟩, lswap_adjacent, ih]
      simp [bubbleRev, hcmp]
    · rw [if_neg (by simp [hcmp])]
      simp [bubbleRev, hcmp]

/-- `bubbleRev` adds exactly one element. -/
theorem bubbleRev_length (cmp : α → α → Int) (x : α) (l : List α) :
    (bubbleRev cmp x l).length = l.length + 1 := by
  induction l with
  | nil => rfl
  | cons y ys ih =>
    unfold bubbleRev
    split <;> simp [ih]

/-- The outer insertion-sort loop folds `bubbleRev` over the remaining
elements. -/
theorem insertionSortLoop_eq [Inhabited α] (cmp : α → α → Int) :
    ∀ (rest P : List α) (b fuel : Nat), b = P.length + rest.length →
      rest.length ≤ fuel →
      insertionSortLoop cmp 0 b (P ++ rest) P.length fuel =
        (rest.foldl (fun accRev x => bubbleRev cmp x accRev) P.reverse).reverse
  | [], P, b, fuel, hb, _ => by
    cases fuel <;>
      simp [insertionSortLoop, hb]
  | x :: rest', P, b, fuel, hb, hfuel => by
    cases fuel with
    | zero => exact absurd hfuel (by simp)
    | succ f =>
      have hlt : P.length < b := by
        rw [hb]
        simp only [List.length_cons]
        omega
      have hstep := insertInner_decomp cmp P x rest'
      have hlen2 : ((bubbleRev cmp x P.reverse).reverse).length =
          P.length + 1 := by
        simp [bubbleRev_length]
      have hrec := insertionSortLoop_eq cmp rest'
        ((bubbleRev cmp x P.reverse).reverse) b f
        (by rw [hb, hlen2]; simp only [List.length_cons]; omega)
        (by simpa using Nat.le_of_succ_le_succ hfuel)
      show insertionSortLoop cmp 0 b (P ++ x :: rest') P.length (f + 1) = _
      rw [show insertionSortLoop cmp 0 b (P ++ x :: rest') P.length (f + 1) =
          if P.length < b then
            insertionSortLoop cmp 0 b (insertInner cmp (P ++ x :: rest') 0
              P.length) (P.length + 1) f
          else P ++ x :: rest' from rfl]
      rw [if_pos hlt, hstep, show P.length + 1 =
        ((bubbleRev cmp x P.reverse).reverse).length from hlen2.symm, hrec]
      simp [List.foldl_cons]

/-- `insertionSortCmpFunc` over the whole list equals the structural
stable insertion sort. -/
theorem insertionSortCmpFunc_eq_stable [Inhabited α] (cmp : α → α → Int)
    (l : List α) :
    insertionSortCmpFunc cmp l 0 l.length = stableInsertionSort cmp l := by
  cases l with
  | nil => rfl
  | cons x tail =>
    unfold insertionSortCmpFunc stableInsertionSort
    have h := insertionSortLoop_eq cmp tail [x] (x :: tail).length
      (x :: tail).length (by simp [Nat.add_comm]) (by simp)
    simp only [List.singleton_append, List.length_singleton,
      List.reverse_cons, List.reverse_nil, List.nil_append] at h
    simp only [Nat.zero_add]
    rw [h]
    simp [List.foldl_cons, bubbleRev]

/-- Up to twelve elements, `slices.SortFunc` is exactly the stable
insertion sort (`maxInsertion = 12` in `pdqsortCmpFunc`). -/
theorem slicesSortFunc_eq_insertion_le12 [Inhabited α] (cmp : α → α → Int)
    (l : List α) (h : l.length ≤ 12) :
    slicesSortFunc cmp l = stableInsertionSort cmp l := by
  unfold slicesSortFunc pdqsortCmpFunc
  rw [show l.length - 0 + 1 = l.length + 1 from by omega]
  rw [show pdqsortLoop cmp l 0 l.length (bitsLen l.length) true true
      (l.length + 1) =
      if l.length - 0 ≤ 12 then insertionSortCmpFunc cmp l 0 l.length
      else _ from rfl]
  rw [if_pos (by omega)]
  exact insertionSortCmpFunc_eq_stable cmp l

/-- `bubbleRev` splits the list at the longest prefix of strictly greater
elements. -/
theorem bubbleRev_split (cmp : α → α → Int) (x : α) (l : List α) :
    bubbleRev cmp x l =
      l.takeWhile (fun y => decide (cmp x y < 0)) ++
        x :: l.dropWhile (fun y => decide (cmp x y < 0)) := by
  induction l with
  | nil => rfl
  | cons y ys ih =>
    unfold bubbleRev
    by_cases h : cmp x y < 0 <;>
      simp [List.takeWhile_cons, List.dropWhile_cons, h, ih]

/-- The accumulator-reversed fold in `stableInsertionSort` is the
`sortStep` fold. -/
theorem stableInsertionSort_eq_foldl (cmp : α → α → Int) (l : List α) :
    stableInsertionSort cmp l = l.foldl (sortStep cmp) [] := by
  have haux : ∀ (l accRev : List α),
      (l.foldl (fun accRev x => bubbleRev cmp x accRev) accRev).reverse =
        l.foldl (sortStep cmp) accRev.reverse := by
    intro l
    induction l with
    | nil => intro accRev; rfl
    | cons x tail ih =>
      intro accRev
      simp only [List.foldl_cons]
      rw [ih (bubbleRev cmp x accRev)]
      congr 1
      simp [sortStep]
  simpa using haux l []

/-- Every element the bubble passes over compares strictly above `x`. -/
theorem mem_takeWhile_key (cmp : α → α → Int) (key : α → Int)
    (hcmp : ∀ u v, cmp u v < 0 ↔ key u < key v) (x : α) (l : List α)
    (b : α) (hb : b ∈ l.takeWhile (fun y => decide (cmp x y < 0))) :
    key x < key b := by
  have := List.mem_takeWhile_imp hb
  simp only [decide_eq_true_eq] at this
  exact (hcmp x b).mp this

/-- In a reversed sorted prefix, everything the bubble does not pass over
compares at or below `x`. -/
theorem mem_dropWhile_key (cmp : α → α → Int) (key : α → Int)
    (hcmp : ∀ u v, cmp u v < 0 ↔ key u < key v) (x : α) :
    ∀ (L : List α), L.Pairwise (fun u v => key v ≤ key u) →
      ∀ b ∈ L.dropWhile (fun y => decide (cmp x y < 0)), key b ≤ key x := by
  intro L
  induction L with
  | nil => intro _ b hb; cases hb
  | cons h L' ih =>
    intro hpw b hb
    rw [List.pairwise_cons] at hpw
    by_cases hph : cmp x h < 0
    · rw [List.dropWhile_cons_of_pos (by simpa using hph)] at hb
      exact ih hpw.2 b hb
    · rw [List.dropWhile_cons_of_neg (by simpa using hph)] at hb
      have hhx : key h ≤ key x := by
        have := (hcmp x h).not.mp hph
        omega
      rcases List.mem_cons.mp hb with rfl | hb'
      · exact hhx
      · exact le_trans (hpw.1 b hb') hhx

/-- `sortStep` written as prefix, new element, strictly-greater suffix. -/
theorem sortStep_eq_append (cmp : α → α → Int) (P : List α) (x : α) :
    sortStep cmp P x =
      (List.dropWhile (fun y => decide (cmp x y < 0)) P.reverse).reverse ++
        x :: (List.takeWhile (fun y => decide (cmp x y < 0))
          P.reverse).reverse := by
  unfold sortStep
  rw [bubbleRev_split]
  simp

/-- The prefix and suffix of `sortStep` reassemble `P`. -/
theorem sortStep_prefix_suffix (cmp : α → α → Int) (P : List α) (x : α) :
    (List.dropWhile (fun y => decide (cmp x y < 0)) P.reverse).reverse ++
      (List.takeWhile (fun y => decide (cmp x y < 0)) P.reverse).reverse =
      P := by
  rw [← List.reverse_append, List.takeWhile_append_dropWhile,
    List.reverse_reverse]

/-- `sortStep` preserves sortedness. -/
theorem sortStep_pairwise (cmp : α → α → Int) (key : α → Int)
    (hcmp : ∀ u v, cmp u v < 0 ↔ key u < key v) (P : List α) (x : α)
    (hP : P.Pairwise (fun u v => key u ≤ key v)) :
    (sortStep cmp P x).Pairwise (fun u v => key u ≤ key v) := by
  rw [sortStep_eq_append]
  set p := fun y => decide (cmp x y < 0) with hp
  set A := (List.dropWhile p P.reverse).reverse with hA
  set B := (List.takeWhile p P.reverse).reverse with hB
  have hAB : A ++ B = P := sortStep_prefix_suffix cmp P x
  have hPsplit := hAB ▸ hP
  rw [List.pairwise_append] at hPsplit
  obtain ⟨pwA, pwB, cross⟩ := hPsplit
  have hmemB : ∀ b ∈ B, key x < key b := by
    intro b hb
    rw [hB, List.mem_reverse] at hb
    exact mem_takeWhile_key cmp key hcmp x P.reverse b hb
  have hmemA : ∀ a ∈ A, key a ≤ key x := by
    intro a ha
    rw [hA, List.mem_reverse] at ha
    exact mem_dropWhile_key cmp key hcmp x P.reverse
      (by rw [List.pairwise_reverse]; exact hP) a ha
  rw [List.pairwise_append]
  refine ⟨pwA, ?_, ?_⟩
  · rw [List.pairwise_cons]
    exact ⟨fun b hb => le_of_lt (hmemB b hb), pwB⟩
  · intro a ha b hb
    rcases List.mem_cons.mp hb with rfl | hb'
    · exact hmemA a ha
    · exact cross a ha b hb'

/-- `sortStep` appends the new element to the end of its key class and
leaves every other key class unchanged. -/
theorem sortStep_filter (cmp : α → α → Int) (key : α → Int)
    (hcmp : ∀ u v, cmp u v < 0 ↔ key u < key v) (P : List α) (x : α)
    (t : Int) :
    (sortStep cmp P x).filter (fun r => key r == t) =
      P.filter (fun r => key r == t) ++
        (if key x == t then [x] else []) := by
  rw [sortStep_eq_append]
  set p := fun y => decide (cmp x y < 0) with hp
  set A := (List.dropWhile p P.reverse).reverse with hA
  set B := (List.takeWhile p P.reverse).reverse with hB
  have hAB : A ++ B = P := sortStep_prefix_suffix cmp P x
  have hmemB : ∀ b ∈ B, key x < key b := by
    intro b hb
    rw [hB, List.mem_reverse] at hb
    exact mem_takeWhile_key cmp key hcmp x P.reverse b hb
  rw [← hAB, List.filter_append, List.filter_append, List.filter_cons]
  by_cases hx : key x == t
  · have hxt : key x = t := by simpa using hx
    have hBnil : B.filter (fun r => key r == t) = [] := by
      rw [List.filter_eq_nil_iff]
      intro b hb
      have := hmemB b hb
      simp only [beq_iff_eq]
      omega
    simp [hx, hBnil]
  · simp [hx]

/-- `sortStep` permutes the new element into the prefix. -/
theorem sortStep_perm (cmp : α → α → Int) (P : List α) (x : α) :
    (sortStep cmp P x).Perm (P ++ [x]) := by
  rw [sortStep_eq_append]
  have h1 : ((List.dropWhile (fun y => decide (cmp x y < 0))
        P.reverse).reverse ++
      x :: (List.takeWhile (fun y => decide (cmp x y < 0))
        P.reverse).reverse).Perm
      (x :: ((List.dropWhile (fun y => decide (cmp x y < 0))
        P.reverse).reverse ++
      (List.takeWhile (fun y => decide (cmp x y < 0))
        P.reverse).reverse)) := List.perm_middle
  rw [sortStep_prefix_suffix] at h1
  exact h1.trans (List.perm_append_singleton x P).symm

/-- The `sortStep` fold is a sorted, stable permutation of its input,
relative to any sorted, stable prefix. -/
theorem foldl_sortStep_spec (cmp : α → α → Int) (key : α → Int)
    (hcmp : ∀ u v, cmp u v < 0 ↔ key u < key v) :
    ∀ (l P : List α), P.Pairwise (fun u v => key u ≤ key v) →
      (l.foldl (sortStep cmp) P).Perm (P ++ l) ∧
      (l.foldl (sortStep cmp) P).Pairwise (fun u v => key u ≤ key v) ∧
      ∀ t : Int, (l.foldl (sortStep cmp) P).filter (fun r => key r == t) =
        P.filter (fun r => key r == t) ++ l.filter (fun r => key r == t) := by
  intro l
  induction l with
  | nil =>
    intro P hP
    exact ⟨by simp, hP, by simp⟩
  | cons x tail ih =>
    intro P hP
    obtain ⟨ihperm, ihpw, ihfilter⟩ :=
      ih (sortStep cmp P x) (sortStep_pairwise cmp key hcmp P x hP)
    refine ⟨?_, ihpw, ?_⟩
    · simp only [List.foldl_cons]
      refine ihperm.trans ?_
      have h2 : (sortStep cmp P x ++ tail).Perm ((P ++ [x]) ++ tail) :=
        (sortStep_perm cmp P x).append_right tail
      refine h2.trans ?_
      rw [List.append_assoc, List.singleton_append]
    · intro t
      simp only [List.foldl_cons]
      rw [ihfilter t, sortStep_filter cmp key hcmp P x t, List.filter_cons]
      by_cases hx : (key x == t) = true
      · simp [hx]
      · rw [Bool.not_eq_true] at hx
        simp [hx]

/-- `cmpRunStarted` is negative exactly on strictly earlier starts. -/
theorem cmpRunStarted_lt_iff (u v : Run) :
    cmpRunStarted u v < 0 ↔ u.Started < v.Started := by
  unfold cmpRunStarted
  split_ifs with h1 h2 <;> constructor <;> intro <;> omega

/-- **C2 (amended).** `SortRuns` sorts by `Started` ascending, but the
sort is not stable in general: for reports of at most twelve runs (the
insertion-sort cutoff of `slices.SortFunc`) the result is a sorted,
stable permutation of the runs — beyond twelve runs equal-`Started` runs
may be reordered, as the counterexample shows. -/
theorem sortRuns_sorted_stable_upto_twelve (r : Report)
    (h : r.Runs.length ≤ 12) :
    ((Report.SortRuns r).Runs).Perm r.Runs ∧
    ((Report.SortRuns r).Runs).Pairwise
      (fun u v => u.Started ≤ v.Started) ∧
    ∀ t : Int, ((Report.SortRuns r).Runs).filter
        (fun run => run.Started == t) =
      r.Runs.filter (fun run => run.Started == t) := by
  have hsort : (Report.SortRuns r).Runs =
      stableInsertionSort cmpRunStarted r.Runs :=
    slicesSortFunc_eq_insertion_le12 cmpRunStarted r.Runs h
  rw [hsort, stableInsertionSort_eq_foldl]
  obtain ⟨hperm, hpw, hfil⟩ := foldl_sortStep_spec cmpRunStarted Run.Started
    cmpRunStarted_lt_iff r.Runs [] (by simp)
  exact ⟨by simpa using hperm, hpw, by simpa using hfil⟩

/-- A three-run report with two equal start times. -/
def reportThree : Report :=
  { Runs := [mkRun "/x" 5, mkRun "/y" 3, mkRun "/z" 3], shouldColor := true }

/-- Witness for the amended C2 at a three-run report with two equal
start times. -/
theorem sortRuns_sorted_stable_upto_twelve_witness :
    reportThree.Runs.length ≤ 12 ∧
    (((Report.SortRuns reportThree).Runs).Perm reportThree.Runs ∧
     ((Report.SortRuns reportThree).Runs).Pairwise
       (fun u v => u.Started ≤ v.Started) ∧
     ∀ t : Int, ((Report.SortRuns reportThree).Runs).filter
         (fun run => run.Started == t) =
       reportThree.Runs.filter (fun run => run.Started == t)) :=
  ⟨by decide, sortRuns_sorted_stable_upto_twelve reportThree (by decide)⟩

/-! ## WriteToFile (Go `Report.WriteToFile`)

The function creates a temporary file with `os.CreateTemp("", pattern)` —
first argument empty, so the file is created in the operating-system
default temporary directory — sorts the runs, writes the CSV, closes the
file and calls `os.Rename` onto the destination.  The file system is
modelled as a path-to-contents map; `os.CreateTemp` is modelled by its
contract (a fresh file in the given directory, here the OS temp
directory), `os.Rename` by its contract (atomically replaces the target,
or fails leaving everything unchanged), and each fallible step takes its
outcome from an oracle. -/

/-- Update or append one file in a path-to-contents list. -/
def fsWriteL (p c : String) : List (String × String) → List (String × String)
  | [] => [(p, c)]
  | q :: rest => if q.1 == p then (p, c) :: rest else q :: fsWriteL p c rest

/-- A file system: a path-to-contents map. -/
structure FileSys where
  files : List (String × String)
  deriving Repr, DecidableEq

/-- Contents of a path, when the file exists. -/
def fsLookup (fs : FileSys) (path : String) : Option String :=
  (fs.files.find? (fun q => q.1 == path)).map Prod.snd

/-- Create or replace one file. -/
def fsWrite (fs : FileSys) (path content : String) : FileSys :=
  { files := fsWriteL path content fs.files }

/-- Remove one file. -/
def fsRemove (fs : FileSys) (path : String) : FileSys :=
  { files := fs.files.filter (fun q => !(q.1 == path)) }

/-- The outcomes of `WriteToFile`, one per `return` site. -/
inductive WriteFileOutcome where
  | ok
  | errCreateTemp
  | errWrite
  | errClose
  | errRename
  deriving Repr, DecidableEq

/-- Failure oracle for the fallible steps of `WriteToFile`:
`partialContent` is whatever the failed CSV write left in the temporary
file. -/
structure WriteFileOracle where
  createTempFails : Bool
  writeFails : Bool
  partialContent : String
  closeFails : Bool
  renameFails : Bool
  deriving Repr, DecidableEq

/-- The directory part of a path (everything before the last slash),
computed on the character list so it evaluates by `decide`. -/
def parentDir (p : String) : String :=
  String.mk
    (((p.data.reverse.dropWhile (fun c => !(c == '/'))).drop 1).reverse)

/-- The path `os.CreateTemp("", "terragrunt-report-*.csv")` creates: in
the OS temp directory, with the `*` of the pattern instantiated. -/
def tempPath (osTempDir tmpSuffix : String) : String :=
  osTempDir ++ "/terragrunt-report-" ++ tmpSuffix ++ ".csv"

/-- `Report.WriteToFile`: create a temporary file in the OS temp
directory, sort the runs, write the CSV to the temporary file, close it,
and rename it onto `path`; each failing step returns its error without
touching the destination. -/
def Report.WriteToFile (r : Report) (fs : FileSys)
    (osTempDir tmpSuffix : String) (oracle : WriteFileOracle)
    (path : String) (offsetSec : Int) :
    WriteFileOutcome × FileSys × Report :=
  if oracle.createTempFails then (.errCreateTemp, fs, r)
  else
    let tmp := tempPath osTempDir tmpSuffix
    let fs := fsWrite fs tmp ""
    let r := r.SortRuns
    if oracle.writeFails then (.errWrite, fsWrite fs tmp oracle.partialContent, r)
    else
      let fs := fsWrite fs tmp (r.WriteCSV offsetSec)
      if oracle.closeFails then (.errClose, fs, r)
      else if oracle.renameFails then (.errRename, fs, r)
      else (.ok, fsWrite (fsRemove fs tmp) path (r.WriteCSV offsetSec), r)

/-- Writing a path makes its contents visible. -/
theorem fsLookup_fsWrite_self (fs : FileSys) (p c : String) :
    fsLookup (fsWrite fs p c) p = some c := by
  show (List.find? (fun q => q.1 == p) (fsWriteL p c fs.files)).map Prod.snd =
    some c
  induction fs.files with
  | nil => simp [fsWriteL, List.find?]
  | cons q rest ih =>
    by_cases hq : (q.1 == p) = true
    · simp [fsWriteL, hq, List.find?]
    · rw [Bool.not_eq_true] at hq
      simpa [fsWriteL, hq, List.find?_cons, hq] using ih

/-- Writing one path leaves every other path unchanged. -/
theorem fsLookup_fsWrite_ne (fs : FileSys) (p c q : String) (h : q ≠ p) :
    fsLookup (fsWrite fs p c) q = fsLookup fs q := by
  have hpq : (p == q) = false := beq_eq_false_iff_ne.mpr (fun hc => h hc.symm)
  show (List.find? (fun e => e.1 == q) (fsWriteL p c fs.files)).map Prod.snd =
    (List.find? (fun e => e.1 == q) fs.files).map Prod.snd
  induction fs.files with
  | nil => simp [fsWriteL, List.find?, hpq]
  | cons e rest ih =>
    by_cases he : (e.1 == p) = true
    · have heq : (e.1 == q) = false := by
        have he2 : e.1 = p := by simpa using he
        rw [he2]
        exact hpq
      simp [fsWriteL, he, List.find?_cons, hpq, heq]
    · rw [Bool.not_eq_true] at he
      by_cases heq : (e.1 == q) = true
      · simp [fsWriteL, he, List.find?_cons, heq]
      · rw [Bool.not_eq_true] at heq
        simpa [fsWriteL, he, List.find?_cons, heq] using ih

/-- Removing one path leaves every other path unchanged. -/
theorem fsLookup_fsRemove_ne (fs : FileSys) (p q : String) (h : q ≠ p) :
    fsLookup (fsRemove fs p) q = fsLookup fs q := by
  show (List.find? (fun e => e.1 == q)
      (fs.files.filter (fun e => !(e.1 == p)))).map Prod.snd =
    (List.find? (fun e => e.1 == q) fs.files).map Prod.snd
  induction fs.files with
  | nil => simp
  | cons e rest ih =>
    by_cases hep : (e.1 == p) = true
    · have heq : (e.1 == q) = false := by
        have he2 : e.1 = p := by simpa using hep
        rw [he2]
        exact beq_eq_false_iff_ne.mpr (fun hc => h hc.symm)
      simpa [List.filter_cons, hep, List.find?_cons, heq] using ih
    · rw [Bool.not_eq_true] at hep
      by_cases heq : (e.1 == q) = true
      · simp [List.filter_cons, hep, List.find?_cons, heq]
      · rw [Bool.not_eq_true] at heq
        simpa [List.filter_cons, hep, List.find?_cons, heq] using ih

/-- **C3 (counterexample).** The temporary file is not a sibling of the
destination: with the OS temp directory `/tmp` and destination
`/data/report.csv`, a run that fails at the close step leaves the
temporary file, holding the full report, under `/tmp`, while the
destination directory differs and the destination was never written. -/
theorem writeToFile_temp_not_sibling_counterexample :
    parentDir (tempPath "/tmp" "123456") ≠ parentDir "/data/report.csv" ∧
    (NewReport.WriteToFile { files := [] } "/tmp" "123456"
      { createTempFails := false, writeFails := false, partialContent := "",
        closeFails := true, renameFails := false }
      "/data/report.csv" 0).1 = .errClose ∧
    fsLookup (NewReport.WriteToFile { files := [] } "/tmp" "123456"
      { createTempFails := false, writeFails := false, partialContent := "",
        closeFails := true, renameFails := false }
      "/data/report.csv" 0).2.1 (tempPath "/tmp" "123456") =
      some "Name,Started,Ended,Result,Reason,Cause\n" ∧
    fsLookup (NewReport.WriteToFile { files := [] } "/tmp" "123456"
      { createTempFails := false, writeFails := false, partialContent := "",
        closeFails := true, renameFails := false }
      "/data/report.csv" 0).2.1 "/data/report.csv" = none := by
  refine ⟨by decide, by decide, by decide, by decide⟩

/-- **C3 (amended).** `WriteToFile` writes the sorted report to a
temporary file in the OS temp directory (not a sibling of the
destination) and renames it into place: on any failing step the
destination is unchanged, and on success it holds exactly the complete
tabular report of the sorted runs. -/
theorem writeToFile_spec (r : Report) (fs : FileSys)
    (osTempDir tmpSuffix path : String) (oracle : WriteFileOracle)
    (offsetSec : Int) (hne : tempPath osTempDir tmpSuffix ≠ path) :
    ((r.WriteToFile fs osTempDir tmpSuffix oracle path offsetSec).1 ≠ .ok →
      fsLookup (r.WriteToFile fs osTempDir tmpSuffix oracle path
        offsetSec).2.1 path = fsLookup fs path) ∧
    ((r.WriteToFile fs osTempDir tmpSuffix oracle path offsetSec).1 = .ok →
      fsLookup (r.WriteToFile fs osTempDir tmpSuffix oracle path
        offsetSec).2.1 path =
        some (r.SortRuns.WriteCSV offsetSec)) := by
  have hpath : path ≠ tempPath osTempDir tmpSuffix := fun h => hne h.symm
  rcases oracle with ⟨ct, wf, pc, cf, rf⟩
  cases ct with
  | true =>
    exact ⟨fun _ => rfl, fun h => WriteFileOutcome.noConfusion h⟩
  | false =>
    cases wf with
    | true =>
      refine ⟨fun _ => ?_, fun h => WriteFileOutcome.noConfusion h⟩
      show fsLookup (fsWrite (fsWrite fs (tempPath osTempDir tmpSuffix) "")
        (tempPath osTempDir tmpSuffix) pc) path = fsLookup fs path
      rw [fsLookup_fsWrite_ne _ _ _ _ hpath, fsLookup_fsWrite_ne _ _ _ _ hpath]
    | false =>
      cases cf with
      | true =>
        refine ⟨fun _ => ?_, fun h => WriteFileOutcome.noConfusion h⟩
        show fsLookup (fsWrite (fsWrite fs (tempPath osTempDir tmpSuffix) "")
          (tempPath osTempDir tmpSuffix)
          (r.SortRuns.WriteCSV offsetSec)) path = fsLookup fs path
        rw [fsLookup_fsWrite_ne _ _ _ _ hpath,
          fsLookup_fsWrite_ne _ _ _ _ hpath]
      | false =>
        cases rf with
        | true =>
          refine ⟨fun _ => ?_, fun h => WriteFileOutcome.noConfusion h⟩
          show fsLookup (fsWrite (fsWrite fs (tempPath osTempDir tmpSuffix)
            "") (tempPath osTempDir tmpSuffix)
            (r.SortRuns.WriteCSV offsetSec)) path = fsLookup fs path
          rw [fsLookup_fsWrite_ne _ _ _ _ hpath,
            fsLookup_fsWrite_ne _ _ _ _ hpath]
        | false =>
          refine ⟨fun h => absurd rfl h, fun _ => ?_⟩
          show fsLookup (fsWrite (fsRemove (fsWrite (fsWrite fs
            (tempPath osTempDir tmpSuffix) "") (tempPath osTempDir tmpSuffix)
            (r.SortRuns.WriteCSV offsetSec)) (tempPath osTempDir tmpSuffix))
            path (r.SortRuns.WriteCSV offsetSec)) path =
            some (r.SortRuns.WriteCSV offsetSec)
          rw [fsLookup_fsWrite_self]

/-- Witness for C3: the success path replaces the destination with the
sorted report, at concrete inputs. -/
theorem writeToFile_spec_witness :
    tempPath "/tmp" "42" ≠ "/data/report.csv" ∧
    ((reportThree.WriteToFile { files := [("/data/report.csv", "old")] }
        "/tmp" "42"
        { createTempFails := false, writeFails := false, partialContent := "",
          closeFails := false, renameFails := false }
        "/data/report.csv" 0).1 = .ok →
      fsLookup (reportThree.WriteToFile
        { files := [("/data/report.csv", "old")] } "/tmp" "42"
        { createTempFails := false, writeFails := false, partialContent := "",
          closeFails := false, renameFails := false }
        "/data/report.csv" 0).2.1 "/data/report.csv" =
        some (reportThree.SortRuns.WriteCSV 0)) :=
  ⟨by decide,
   (writeToFile_spec reportThree { files := [("/data/report.csv", "old")] }
     "/tmp" "42" "/data/report.csv"
     { createTempFails := false, writeFails := false, partialContent := "",
       closeFails := false, renameFails := false } 0 (by decide)).2⟩

/-! ## Module resolution (Go `configstack/default_stack.go`)

Only the fields the verified code reads are modelled.  `Dependencies`
holds the paths of the resolved dependency modules (the Go field is a
slice of module pointers of which only `.Path` is read here). -/

/-- Embedding of `configstack.TerraformModule` (the fields used here). -/
structure TerraformModule where
  Path : String
  AssumeAlreadyApplied : Bool
  FlagExcluded : Bool
  Dependencies : List String
  deriving Repr, DecidableEq

/-- A module map (`TerraformModulesMap`), as an association list in
insertion order. -/
abbrev TerraformModulesMap := List (String × TerraformModule)

/-- Module lookup, `modulesMap[key]`. -/
def tmLookup (m : TerraformModulesMap) (k : String) : Option TerraformModule :=
  (m.find? (fun e => e.1 == k)).map Prod.snd

/-- `_, found := modulesMap[key]`. -/
def tmContains (m : TerraformModulesMap) (k : String) : Bool :=
  m.any (fun e => e.1 == k)

/-- `map[k] = v`: update in place or append. -/
def tmInsert (k : String) (v : TerraformModule) :
    TerraformModulesMap → TerraformModulesMap
  | [] => [(k, v)]
  | e :: rest => if e.1 == k then (k, v) :: rest else e :: tmInsert k v rest

/-- Modelled from the spec: `mergeMaps` (defined outside `src/`) returns
a merged copy of two module maps, entries of the second overriding the
first. -/
def tmMergeMaps (m other : TerraformModulesMap) : TerraformModulesMap :=
  other.foldl (fun acc e => tmInsert e.1 e.2 acc) m

/-- Byte-wise string comparison (paths here are ASCII, where comparing
scalar values agrees with Go byte-wise `<`). -/
def charListLe : List Char → List Char → Bool
  | [], _ => true
  | _ :: _, [] => false
  | a :: as, b :: bs =>
    if a.val < b.val then true
    else if b.val < a.val then false
    else charListLe as bs

/-- `a <= b` on strings. -/
def strLe (a b : String) : Bool := charListLe a.data b.data

/-- Insert into a sorted string list. -/
def insertSortedKey (k : String) : List String → List String
  | [] => [k]
  | x :: xs => if strLe k x then k :: x :: xs else x :: insertSortedKey k xs

/-- Modelled from the spec: `getSortedKeys` (defined outside `src/`)
returns the keys of a module map in ascending order. -/
def getSortedKeys (m : TerraformModulesMap) : List String :=
  (m.map Prod.fst).foldr insertSortedKey []

/-- The errors of module resolution used here. -/
inductive ConfigstackErr where
  | InfiniteRecursion (recursionLevel : Nat) (modulePaths : List String)
  | ResolveFailed (msg : String)
  deriving Repr, DecidableEq

/-- The environment of `resolveExternalDependenciesForModules`:
`ignoreExternalDependencies` is the Terragrunt option;
`confirm module dep` abstracts `module.confirmShouldApplyExternalDependency`
(its error path is out of scope here); `resolveDeps module modulesToSkip`
abstracts `resolveDependenciesForModule(module, modulesToSkip, false)`,
which parses configuration from disk. -/
structure ResolveEnv where
  ignoreExternalDependencies : Bool
  confirm : TerraformModule → TerraformModule → Bool
  resolveDeps : TerraformModule → TerraformModulesMap →
    Except ConfigstackErr TerraformModulesMap

/-- Modelled from the spec: the recursion-depth design constant
`maxLevelsOfRecursion` (defined outside `src/`) is 1000. -/
def maxLevelsOfRecursion : Nat := 1000

/-- The body of the `for _, externalDependency := range externalDependencies`
loop: skip already-known modules, consult the confirmation callback only
when external dependencies are not ignored, and record the dependency
with `AssumeAlreadyApplied = !shouldApply`. -/
def processExternalDependency (env : ResolveEnv)
    (modulesToSkip : TerraformModulesMap) (module : TerraformModule)
    (acc : TerraformModulesMap) (externalDependency : TerraformModule) :
    TerraformModulesMap :=
  if tmContains modulesToSkip externalDependency.Path then acc
  else
    let shouldApply :=
      if ¬ env.ignoreExternalDependencies then
        env.confirm module externalDependency
      else false
    tmInsert externalDependency.Path
      { externalDependency with AssumeAlreadyApplied := !shouldApply } acc

/-- The `for _, key := range sortedKeys` loop collecting
`allExternalDependencies`. -/
def resolveExternalLoop (env : ResolveEnv) (modulesMap : TerraformModulesMap)
    (modulesToSkip : TerraformModulesMap) :
    List String → TerraformModulesMap →
      Except ConfigstackErr TerraformModulesMap
  | [], acc => .ok acc
  | key :: rest, acc =>
    match tmLookup modulesMap key with
    | none => resolveExternalLoop env modulesMap modulesToSkip rest acc
    | some module =>
      match env.resolveDeps module modulesToSkip with
      | .error e => .error e
      | .ok externalDependencies =>
        resolveExternalLoop env modulesMap modulesToSkip rest
          (externalDependencies.foldl
            (fun acc e =>
              processExternalDependency env modulesToSkip module acc e.2)
            acc)

/-- `resolveExternalDependenciesForModules`: refuse recursion deeper than
`maxLevelsOfRecursion`, collect the external dependencies of every module
(keys in sorted order), and recurse on the newly found ones.  The fuel
argument of the auxiliary makes the recursion structural; the wrapper
passes `maxLevelsOfRecursion + 2 - recursionLevel`, which the depth guard
keeps from running out: the only way fuel reaches zero is
`recursionLevel > maxLevelsOfRecursion + 1`, where the Go code also
returns `InfiniteRecursion`. -/
def resolveExternalAux (env : ResolveEnv) :
    TerraformModulesMap → TerraformModulesMap → Nat → Nat →
      Except ConfigstackErr TerraformModulesMap
  | modulesMap, modulesAlreadyProcessed, _, 0 =>
    .error (.InfiniteRecursion maxLevelsOfRecursion
      ((tmMergeMaps modulesMap modulesAlreadyProcessed).map Prod.fst))
  | modulesMap, modulesAlreadyProcessed, recursionLevel, fuel + 1 =>
    let modulesToSkip := tmMergeMaps modulesMap modulesAlreadyProcessed
    if recursionLevel > maxLevelsOfRecursion then
      .error (.InfiniteRecursion maxLevelsOfRecursion
        (modulesToSkip.map Prod.fst))
    else
      match resolveExternalLoop env modulesMap modulesToSkip
        (getSortedKeys modulesMap) [] with
      | .error e => .error e
      | .ok allExternalDependencies =>
        if allExternalDependencies.length > 0 then
          match resolveExternalAux env allExternalDependencies modulesMap
            (recursionLevel + 1) fuel with
          | .error e => .error e
          | .ok recursiveDependencies =>
            .ok (tmMergeMaps allExternalDependencies recursiveDependencies)
        else .ok allExternalDependencies

/-- `resolveExternalDependenciesForModules(modulesMap,
modulesAlreadyProcessed, recursionLevel)`. -/
def resolveExternalDependenciesForModules (env : ResolveEnv)
    (modulesMap modulesAlreadyProcessed : TerraformModulesMap)
    (recursionLevel : Nat) : Except ConfigstackErr TerraformModulesMap :=
  resolveExternalAux env modulesMap modulesAlreadyProcessed recursionLevel
    (maxLevelsOfRecursion + 2 - recursionLevel)

/-- Inserting a key makes its value visible. -/
theorem tmLookup_tmInsert_self (m : TerraformModulesMap) (k : String)
    (v : TerraformModule) : tmLookup (tmInsert k v m) k = some v := by
  induction m with
  | nil => simp [tmInsert, tmLookup, List.find?]
  | cons e rest ih =>
    by_cases he : (e.1 == k) = true
    · simp [tmInsert, he, tmLookup, List.find?]
    · rw [Bool.not_eq_true] at he
      simpa [tmInsert, he, tmLookup, List.find?_cons] using ih

/-- **C8.** Whenever the recursion level of
`resolveExternalDependenciesForModules` exceeds the design constant 1000,
the resolver immediately returns `InfiniteRecursion` and resolves no
further dependencies (no `resolveDeps` call is reachable: the result does
not depend on the environment beyond the error payload). -/
theorem resolveExternal_infinite_recursion (env : ResolveEnv)
    (modulesMap modulesAlreadyProcessed : TerraformModulesMap)
    (recursionLevel : Nat) (h : recursionLevel > maxLevelsOfRecursion) :
    resolveExternalDependenciesForModules env modulesMap
      modulesAlreadyProcessed recursionLevel =
      .error (.InfiniteRecursion maxLevelsOfRecursion
        ((tmMergeMaps modulesMap modulesAlreadyProcessed).map Prod.fst)) := by
  unfold resolveExternalDependenciesForModules
  rcases hf : maxLevelsOfRecursion + 2 - recursionLevel with _ | fuel
  · rfl
  · show resolveExternalAux env modulesMap modulesAlreadyProcessed
      recursionLevel (fuel + 1) = _
    simp only [resolveExternalAux]
    rw [if_pos h]

/-- Witness for C8 at recursion level 1001 with a trivial environment. -/
theorem resolveExternal_infinite_recursion_witness :
    1001 > maxLevelsOfRecursion ∧
    resolveExternalDependenciesForModules
      { ignoreExternalDependencies := false, confirm := fun _ _ => true,
        resolveDeps := fun _ _ => .ok [] } [] [] 1001 =
      .error (.InfiniteRecursion maxLevelsOfRecursion []) :=
  ⟨by decide,
   resolveExternal_infinite_recursion
     { ignoreExternalDependencies := false, confirm := fun _ _ => true,
       resolveDeps := fun _ _ => .ok [] } [] [] 1001 (by decide)⟩

/-- The external unit of the C7 example, not yet assumed applied. -/
def extDep : TerraformModule :=
  { Path := "/ext", AssumeAlreadyApplied := false, FlagExcluded := false,
    Dependencies := [] }

/-- The root module of the C7 example, depending on the external unit. -/
def rootModule : TerraformModule :=
  { Path := "/root", AssumeAlreadyApplied := false, FlagExcluded := false,
    Dependencies := ["/ext"] }

/-- A C7 environment that ignores external dependencies; its callback
would approve every unit if it were consulted. -/
def ignoreEnv : ResolveEnv :=
  { ignoreExternalDependencies := true,
    confirm := fun _ _ => true,
    resolveDeps := fun m _ =>
      if m.Path == "/root" then .ok [("/ext", extDep)] else .ok [] }

/-- **C7 (counterexample).** With `IgnoreExternalDependencies = true` the
external unit is not included normally: although the callback (never
consulted) would return true, the resolver flips
`AssumeAlreadyApplied` from `false` to `true` on the discovered unit. -/
theorem external_ignored_not_included_normally_counterexample :
    extDep.AssumeAlreadyApplied = false ∧
    resolveExternalDependenciesForModules ignoreEnv
      [("/root", rootModule)] [] 0 =
      .ok [("/ext", { extDep with AssumeAlreadyApplied := true })] :=
  ⟨rfl, rfl⟩

/-- **C7 (amended).** For every discovered external unit not already
known: when `IgnoreExternalDependencies` is false the confirmation
callback decides the flag — `AssumeAlreadyApplied` is set to true exactly
when the callback returns false; when it is true, the callback is not
consulted (the result is independent of it) and the unit is still
included, but with `AssumeAlreadyApplied` set to true.  Already-known
units are skipped. -/
theorem processExternalDependency_spec (env : ResolveEnv)
    (modulesToSkip : TerraformModulesMap) (module : TerraformModule)
    (acc : TerraformModulesMap) (dep : TerraformModule) :
    (tmContains modulesToSkip dep.Path = true →
      processExternalDependency env modulesToSkip module acc dep = acc) ∧
    (tmContains modulesToSkip dep.Path = false →
      env.ignoreExternalDependencies = false →
      tmLookup (processExternalDependency env modulesToSkip module acc dep)
        dep.Path =
        some { dep with AssumeAlreadyApplied := !(env.confirm module dep) }) ∧
    (tmContains modulesToSkip dep.Path = false →
      env.ignoreExternalDependencies = true →
      tmLookup (processExternalDependency env modulesToSkip module acc dep)
        dep.Path = some { dep with AssumeAlreadyApplied := true }) ∧
    (env.ignoreExternalDependencies = true →
      ∀ c : TerraformModule → TerraformModule → Bool,
        processExternalDependency { env with confirm := c } modulesToSkip
          module acc dep =
        processExternalDependency env modulesToSkip module acc dep) := by
  refine ⟨?_, ?_, ?_, ?_⟩
  · intro hc
    simp [processExternalDependency, hc]
  · intro hc hig
    have hform : processExternalDependency env modulesToSkip module acc dep =
        tmInsert dep.Path
          { dep with AssumeAlreadyApplied := !(env.confirm module dep) }
          acc := by
      unfold processExternalDependency
      rw [if_neg (by simp [hc]), if_pos (by simp [hig])]
    rw [hform]
    exact tmLookup_tmInsert_self acc dep.Path _
  · intro hc hig
    have hform : processExternalDependency env modulesToSkip module acc dep =
        tmInsert dep.Path { dep with AssumeAlreadyApplied := true } acc := by
      unfold processExternalDependency
      rw [if_neg (by simp [hc]), if_neg (by simp [hig])]
      rfl
    rw [hform]
    exact tmLookup_tmInsert_self acc dep.Path _
  · intro hig c
    simp [processExternalDependency, hig]

/-- A C7 environment that consults the callback, which declines. -/
def askEnv : ResolveEnv :=
  { ignoreExternalDependencies := false, confirm := fun _ _ => false,
    resolveDeps := fun _ _ => .ok [] }

/-- Witness for the amended C7: the callback declines, so the discovered
unit is recorded with `AssumeAlreadyApplied = true`. -/
theorem processExternalDependency_spec_witness :
    tmContains [] extDep.Path = false ∧
    askEnv.ignoreExternalDependencies = false ∧
    tmLookup (processExternalDependency askEnv [] rootModule [] extDep)
        extDep.Path =
      some { extDep with AssumeAlreadyApplied :=
        !(askEnv.confirm rootModule extDep) } :=
  ⟨by decide, rfl,
   (processExternalDependency_spec askEnv [] rootModule [] extDep).2.1
     (by decide) rfl⟩

/-! ## ListStackDependentModules (Go `DefaultStack.ListStackDependentModules`)

The Go function builds a map from module path to a list of dependent
module paths and then iterates a merge step until a round changes no list
size (`noUpdates`).  The outer `for module, dependents := range
dependentModules` iterates a Go map, whose order is unspecified and
randomized per `range`; the model takes the per-round key order from an
oracle, falling back to insertion order whenever the oracle does not
produce a permutation of the keys, so every oracle describes a possible
Go execution.  The loop is fuel-bounded to stay structural; the
termination theorem shows the fuel computed below always suffices. -/

/-- `util.RemoveDuplicatesFromList` (defined outside `src/`), modelled
from the spec: keep the first occurrence of each element. -/
def removeDupAux (seen : List String) : List String → List String
  | [] => []
  | x :: rest =>
    if seen.contains x then removeDupAux seen rest
    else x :: removeDupAux (x :: seen) rest

/-- First-occurrence deduplication. -/
def RemoveDuplicatesFromList (l : List String) : List String :=
  removeDupAux [] l

/-- `util.RemoveElementFromList` (defined outside `src/`), modelled from
the spec: drop every occurrence of the element. -/
def RemoveElementFromList (l : List String) (e : String) : List String :=
  l.filter (fun x => !(x == e))

/-- The `dependentModules` map: module path to dependent paths, as an
association list in insertion order. -/
abbrev DepMap := List (String × List String)

/-- Map read; a missing key reads as the empty (nil) slice, as in Go. -/
def depGet (m : DepMap) (k : String) : List String :=
  match m with
  | [] => []
  | e :: rest => if e.1 == k then e.2 else depGet rest k

/-- Map write: update in place or append. -/
def depSet (k : String) (v : List String) : DepMap → DepMap
  | [] => [(k, v)]
  | e :: rest => if e.1 == k then (k, v) :: rest else e :: depSet k v rest

/-- The keys of the map in insertion order. -/
def depKeys (m : DepMap) : List String := m.map Prod.fst

/-- One dependency of the initial build: append the module path to the
dependency's entry and deduplicate. -/
def buildDepStep (modulePath : String) (m : DepMap) (dep : String) : DepMap :=
  depSet dep (RemoveDuplicatesFromList (depGet m dep ++ [modulePath])) m

/-- One module of the initial build: fold over its dependencies (the Go
`if len(module.Dependencies) != 0` guard). -/
def buildModuleStep (m : DepMap) (module : TerraformModule) : DepMap :=
  if module.Dependencies.length ≠ 0 then
    module.Dependencies.foldl (buildDepStep module.Path) m
  else m

/-- The initial map: for every module and every dependency, append the
module path to the dependency entry, deduplicated. -/
def buildDependentModules (modules : List TerraformModule) : DepMap :=
  modules.foldl buildModuleStep []

/-- One merge step of the fixpoint loop: merge the entry of `dependent`
into the entry of `module`, deduplicate, drop `module` itself, and record
whether the length stayed equal (`noUpdates` conjunct). -/
def dependentStep (module : String) (mn : DepMap × Bool) (dependent : String) :
    DepMap × Bool :=
  let initialSize := (depGet mn.1 module).length
  let list := RemoveDuplicatesFromList
    (depGet mn.1 module ++ depGet mn.1 dependent)
  let list := RemoveElementFromList list module
  (depSet module list mn.1, mn.2 && (initialSize == list.length))

/-- One key's turn: fold the merge step over the snapshot of its entry
(the Go range variable `dependents`). -/
def dependentTurn (mn : DepMap × Bool) (module : String) : DepMap × Bool :=
  (depGet mn.1 module).foldl (dependentStep module) mn

/-- One round over all keys in the given order. -/
def dependentRound (m : DepMap) (order : List String) : DepMap × Bool :=
  order.foldl dependentTurn (m, true)

/-- Multiset equality of key lists (validity of an oracle order). -/
def keyPermCheck : List String → List String → Bool
  | [], ks => ks.isEmpty
  | x :: rest, ks => ks.contains x && keyPermCheck rest (ks.erase x)

/-- The `for { ... if noUpdates { break } }` loop, fuel-bounded. -/
def fixpointLoop (orderOracle : Nat → List String) :
    DepMap → Nat → Nat → DepMap × Bool
  | m, _, 0 => (m, false)
  | m, rnd, fuel + 1 =>
    let ks := depKeys m
    let cand := orderOracle rnd
    let order := if keyPermCheck cand ks then cand else ks
    let mn := dependentRound m order
    if mn.2 then (mn.1, true)
    else fixpointLoop orderOracle mn.1 (rnd + 1) fuel

/-- All paths the map mentions (keys and values), deduplicated. -/
def pathUniverse (m : DepMap) : List String :=
  RemoveDuplicatesFromList (depKeys m ++ (m.map Prod.snd).flatten)

/-- Fuel that the termination theorem shows sufficient: one round per
possible size increase plus one per self-removal, plus slack. -/
def dependentFuel (m : DepMap) : Nat :=
  m.length * (pathUniverse m).length + m.length + 2

/-- `DefaultStack.ListStackDependentModules`: build the initial map and
iterate until no update; the second component records that the loop
exited through `noUpdates` (it always does, by the termination
theorem). -/
def ListStackDependentModules (modules : List TerraformModule)
    (orderOracle : Nat → List String) : DepMap × Bool :=
  let m := buildDependentModules modules
  fixpointLoop orderOracle m 0 (dependentFuel m)

/-- One module directly depends on another (by path). -/
def dependsOn (modules : List TerraformModule) (x y : String) : Prop :=
  ∃ mod ∈ modules, mod.Path = x ∧ y ∈ mod.Dependencies

/-- `x` is a transitive dependent of `k`: `x` reaches `k` through one or
more dependency edges. -/
def TransDepends (modules : List TerraformModule) (x k : String) : Prop :=
  Relation.TransGen (dependsOn modules) x k

/-- Module `/d` of the C10 counterexample stack. -/
def moduleD : TerraformModule :=
  { Path := "/d", AssumeAlreadyApplied := false, FlagExcluded := false,
    Dependencies := ["/c"] }

/-- Module `/c` of the C10 counterexample stack. -/
def moduleC : TerraformModule :=
  { Path := "/c", AssumeAlreadyApplied := false, FlagExcluded := false,
    Dependencies := ["/a", "/c"] }

/-- Module `/b` of the C10 counterexample stack. -/
def moduleB : TerraformModule :=
  { Path := "/b", AssumeAlreadyApplied := false, FlagExcluded := false,
    Dependencies := ["/d"] }

/-- Module `/a` of the C10 counterexample stack. -/
def moduleA : TerraformModule :=
  { Path := "/a", AssumeAlreadyApplied := false, FlagExcluded := false,
    Dependencies := ["/a"] }

/-- The four-module stack of the C10 counterexample, in stack order. -/
def cycleStack : List TerraformModule :=
  [moduleD, moduleC, moduleB, moduleA]

/-- A key order Go's randomized map iteration can produce. -/
def badOracle : Nat → List String := fun _ => ["/a", "/c", "/d"]

/-- **C10 (counterexample).** With the iteration order `/a, /c, /d` —
a permutation of the map keys, hence a possible Go map range order — the
fixpoint exits after one round (all merges masked by equal sizes) with
`/a`'s dependents listed as `/c, /d` only, although `/b` is a transitive
dependent of `/a` (`/b → /d → /c → /a`). -/
theorem listStackDependentModules_incomplete_counterexample :
    (ListStackDependentModules cycleStack badOracle).2 = true ∧
    depGet (ListStackDependentModules cycleStack badOracle).1 "/a" =
      ["/c", "/d"] ∧
    TransDepends cycleStack "/b" "/a" ∧
    "/b" ∉ depGet (ListStackDependentModules cycleStack badOracle).1 "/a" := by
  refine ⟨by decide, by decide, ?_, by decide⟩
  have hbd : dependsOn cycleStack "/b" "/d" :=
    ⟨moduleB, by simp [cycleStack], rfl, by simp [moduleB]⟩
  have hdc : dependsOn cycleStack "/d" "/c" :=
    ⟨moduleD, by simp [cycleStack], rfl, by simp [moduleD]⟩
  have hca : dependsOn cycleStack "/c" "/a" :=
    ⟨moduleC, by simp [cycleStack], rfl, by simp [moduleC]⟩
  exact Relation.TransGen.tail (Relation.TransGen.tail
    (Relation.TransGen.single hbd) hdc) hca

/-! ### Primitive lemmas for the dependent-modules model -/

lemma mem_removeDupAux {x : String} :
    ∀ (seen l : List String),
      x ∈ removeDupAux seen l ↔ x ∈ l ∧ x ∉ seen := by
  intro seen l
  induction l generalizing seen with
  | nil => simp [removeDupAux]
  | cons y rest ih =>
    by_cases h : seen.contains y
    · rw [removeDupAux, if_pos h]
      rw [ih]
      constructor
      · rintro ⟨hx, hs⟩
        exact ⟨List.mem_cons_of_mem _ hx, hs⟩
      · rintro ⟨hx, hs⟩
        rcases List.mem_cons.mp hx with rfl | hx
        · exact absurd (by simpa using h) hs
        · exact ⟨hx, hs⟩
    · rw [removeDupAux, if_neg h]
      constructor
      · intro hx
        rcases List.mem_cons.mp hx with rfl | hx
        · refine ⟨List.mem_cons_self _ _, ?_⟩
          intro hs
          exact h (by simpa using hs)
        · have := (ih (y :: seen)).mp hx
          refine ⟨List.mem_cons_of_mem _ this.1, ?_⟩
          intro hs
          exact this.2 (List.mem_cons_of_mem _ hs)
      · rintro ⟨hx, hs⟩
        rcases List.mem_cons.mp hx with rfl | hx
        · exact List.mem_cons_self _ _
        · by_cases hxy : x = y
          · subst hxy; exact List.mem_cons_self _ _
          · refine List.mem_cons_of_mem _ ((ih (y :: seen)).mpr ⟨hx, ?_⟩)
            intro hmem
            rcases List.mem_cons.mp hmem with h1 | h1
            · exact hxy h1
            · exact hs h1

lemma nodup_removeDupAux :
    ∀ (seen l : List String), (removeDupAux seen l).Nodup := by
  intro seen l
  induction l generalizing seen with
  | nil => simp [removeDupAux]
  | cons y rest ih =>
    by_cases h : seen.contains y
    · rw [removeDupAux, if_pos h]; exact ih seen
    · rw [removeDupAux, if_neg h]
      refine List.nodup_cons.mpr ⟨?_, ih (y :: seen)⟩
      intro hy
      exact ((mem_removeDupAux _ _).mp hy).2 (List.mem_cons_self _ _)

lemma mem_RemoveDuplicatesFromList {x : String} {l : List String} :
    x ∈ RemoveDuplicatesFromList l ↔ x ∈ l := by
  rw [RemoveDuplicatesFromList, mem_removeDupAux]
  simp

lemma nodup_RemoveDuplicatesFromList (l : List String) :
    (RemoveDuplicatesFromList l).Nodup :=
  nodup_removeDupAux [] l

lemma mem_RemoveElementFromList {x e : String} {l : List String} :
    x ∈ RemoveElementFromList l e ↔ x ∈ l ∧ x ≠ e := by
  rw [RemoveElementFromList, List.mem_filter]
  simp

lemma nodup_RemoveElementFromList {l : List String} (e : String)
    (h : l.Nodup) : (RemoveElementFromList l e).Nodup :=
  List.Nodup.filter _ h

lemma self_not_mem_RemoveElementFromList (l : List String) (e : String) :
    e ∉ RemoveElementFromList l e := by
  intro h
  exact (mem_RemoveElementFromList.mp h).2 rfl

lemma RemoveElementFromList_of_not_mem {l : List String} {e : String}
    (h : e ∉ l) : RemoveElementFromList l e = l := by
  rw [RemoveElementFromList]
  apply List.filter_eq_self.mpr
  intro x hx
  simp only [Bool.not_eq_true', beq_eq_false_iff_ne]
  intro hxe
  exact h (hxe ▸ hx)

lemma length_RemoveElementFromList_le (l : List String) (e : String) :
    (RemoveElementFromList l e).length ≤ l.length :=
  List.length_filter_le _ _

lemma length_RemoveElementFromList_lt {l : List String} {e : String}
    (h : e ∈ l) : (RemoveElementFromList l e).length < l.length := by
  induction l with
  | nil => cases h
  | cons y rest ih =>
    rcases List.mem_cons.mp h with rfl | hmem
    · rw [RemoveElementFromList, List.filter_cons, if_neg (by simp)]
      calc (List.filter (fun x => !(x == e)) rest).length
          ≤ rest.length := List.length_filter_le _ _
        _ < (e :: rest).length := by simp
    · rw [RemoveElementFromList, List.filter_cons]
      by_cases hy : (!(y == e)) = true
      · rw [if_pos hy]
        simpa using Nat.succ_lt_succ (ih hmem)
      · rw [if_neg hy]
        calc (List.filter (fun x => !(x == e)) rest).length
            < rest.length := ih hmem
          _ < (y :: rest).length := by simp

lemma depGet_nil (k : String) : depGet [] k = [] := rfl

lemma depGet_cons_pos {e : String × List String} {rest : DepMap} {k : String}
    (h : (e.1 == k) = true) : depGet (e :: rest) k = e.2 := by
  rw [depGet, if_pos h]

lemma depGet_cons_neg {e : String × List String} {rest : DepMap} {k : String}
    (h : (e.1 == k) = false) : depGet (e :: rest) k = depGet rest k := by
  rw [depGet, if_neg (by simp [h])]

lemma depSet_nil (k : String) (v : List String) : depSet k v [] = [(k, v)] :=
  rfl

lemma depSet_cons (k : String) (v : List String) (e : String × List String)
    (rest : DepMap) :
    depSet k v (e :: rest) =
      if e.1 == k then (k, v) :: rest else e :: depSet k v rest := rfl

lemma depGet_depSet_self (k : String) (v : List String) :
    ∀ m : DepMap, depGet (depSet k v m) k = v := by
  intro m
  induction m with
  | nil => rw [depSet_nil, depGet_cons_pos (by simp)]
  | cons e rest ih =>
    rw [depSet_cons]
    by_cases h : (e.1 == k) = true
    · rw [if_pos h, depGet_cons_pos (by simp)]
    · rw [if_neg (by simp_all), depGet_cons_neg (by simp_all), ih]

lemma depGet_depSet_ne {k k2 : String} (hne : k ≠ k2) (v : List String) :
    ∀ m : DepMap, depGet (depSet k v m) k2 = depGet m k2 := by
  intro m
  induction m with
  | nil =>
    rw [depSet_nil, depGet_cons_neg (by simp [hne])]
  | cons e rest ih =>
    rw [depSet_cons]
    by_cases h : (e.1 == k) = true
    · have he : e.1 = k := by simpa using h
      rw [if_pos h, depGet_cons_neg (by simp [hne]),
        depGet_cons_neg (by simp [he, hne])]
    · rw [if_neg (by simp_all)]
      by_cases h2 : (e.1 == k2) = true
      · rw [depGet_cons_pos h2, depGet_cons_pos h2]
      · rw [depGet_cons_neg (by simp_all), depGet_cons_neg (by simp_all), ih]

lemma depKeys_nil : depKeys [] = [] := rfl

lemma depKeys_cons (e : String × List String) (rest : DepMap) :
    depKeys (e :: rest) = e.1 :: depKeys rest := rfl

lemma depKeys_depSet_mem {k : String} (v : List String) :
    ∀ {m : DepMap}, k ∈ depKeys m → depKeys (depSet k v m) = depKeys m := by
  intro m
  induction m with
  | nil => intro h; cases h
  | cons e rest ih =>
    intro h
    rw [depSet_cons]
    by_cases he : (e.1 == k) = true
    · have : e.1 = k := by simpa using he
      rw [if_pos he, depKeys_cons, depKeys_cons, this]
    · have : e.1 ≠ k := by simpa using he
      rw [if_neg (by simp_all), depKeys_cons, depKeys_cons]
      rcases List.mem_cons.mp (by simpa [depKeys_cons] using h) with h1 | h1
      · exact absurd h1.symm this
      · rw [ih h1]

lemma depKeys_depSet_not_mem {k : String} (v : List String) :
    ∀ {m : DepMap}, k ∉ depKeys m →
      depKeys (depSet k v m) = depKeys m ++ [k] := by
  intro m
  induction m with
  | nil => intro _; rfl
  | cons e rest ih =>
    intro h
    rw [depKeys_cons] at h
    rw [depSet_cons]
    by_cases he : (e.1 == k) = true
    · have hek : e.1 = k := by simpa using he
      exact absurd (hek ▸ List.mem_cons_self e.1 (depKeys rest)) h
    · rw [if_neg (by simp_all), depKeys_cons, depKeys_cons,
        ih (fun hk => h (List.mem_cons_of_mem _ hk))]
      rfl

lemma depGet_eq_nil_of_not_mem {k : String} :
    ∀ {m : DepMap}, k ∉ depKeys m → depGet m k = [] := by
  intro m
  induction m with
  | nil => intro _; rfl
  | cons e rest ih =>
    intro h
    rw [depKeys_cons] at h
    have he : (e.1 == k) = false := by
      simp only [beq_eq_false_iff_ne]
      intro hk
      exact h (hk ▸ List.mem_cons_self _ _)
    rw [depGet_cons_neg he]
    exact ih (fun hk => h (List.mem_cons_of_mem _ hk))

lemma mem_depSet {e : String × List String} {k : String} {v : List String} :
    ∀ {m : DepMap}, e ∈ depSet k v m → e = (k, v) ∨ e ∈ m := by
  intro m
  induction m with
  | nil =>
    intro h
    rw [depSet_nil] at h
    left; simpa using h
  | cons e2 rest ih =>
    intro h
    rw [depSet_cons] at h
    by_cases h2 : (e2.1 == k) = true
    · rw [if_pos h2] at h
      rcases List.mem_cons.mp h with h3 | h3
      · left; exact h3
      · right; exact List.mem_cons_of_mem _ h3
    · rw [if_neg (by simp_all)] at h
      rcases List.mem_cons.mp h with h3 | h3
      · right; exact h3 ▸ List.mem_cons_self _ _
      · rcases ih h3 with h4 | h4
        · left; exact h4
        · right; exact List.mem_cons_of_mem _ h4

lemma depGet_nodup {m : DepMap} (h : ∀ e ∈ m, e.2.Nodup) (k : String) :
    (depGet m k).Nodup := by
  induction m with
  | nil => simp [depGet_nil]
  | cons e rest ih =>
    by_cases he : (e.1 == k) = true
    · rw [depGet_cons_pos he]
      exact h e (List.mem_cons_self _ _)
    · rw [depGet_cons_neg (by simp_all)]
      exact ih (fun e2 h2 => h e2 (List.mem_cons_of_mem _ h2))

lemma depGet_subset {m : DepMap} {U : List String}
    (h : ∀ e ∈ m, e.2 ⊆ U) (k : String) : depGet m k ⊆ U := by
  induction m with
  | nil => simp [depGet_nil]
  | cons e rest ih =>
    by_cases he : (e.1 == k) = true
    · rw [depGet_cons_pos he]
      exact h e (List.mem_cons_self _ _)
    · rw [depGet_cons_neg (by simp_all)]
      exact ih (fun e2 h2 => h e2 (List.mem_cons_of_mem _ h2))

/-! ### Termination measure for the fixpoint loop

`phi` sums, over all entries, the length of the value with the key itself
removed; `selfCount` counts entries whose value contains their key.  Each
merge assignment keeps `nMeasure = phi + (length - selfCount)` from
decreasing, and any assignment that changes an entry's length strictly
increases it; `nMeasure` is bounded, so the loop converges. -/

/-- Length of an entry's value without the key itself. -/
def relLen (e : String × List String) : Nat :=
  (RemoveElementFromList e.2 e.1).length

/-- Sum of `relLen` over the map. -/
def phi (m : DepMap) : Nat := (m.map relLen).sum

/-- Number of entries whose value contains their own key. -/
def selfCount (m : DepMap) : Nat :=
  (m.filter (fun e => e.2.contains e.1)).length

/-- The loop measure: non-decreasing, strictly increasing on any size
change, bounded. -/
def nMeasure (m : DepMap) : Nat := phi m + (m.length - selfCount m)

lemma phi_cons (e : String × List String) (rest : DepMap) :
    phi (e :: rest) = relLen e + phi rest := by
  simp [phi]

lemma selfCount_cons (e : String × List String) (rest : DepMap) :
    selfCount (e :: rest) =
      (if e.2.contains e.1 then 1 else 0) + selfCount rest := by
  rw [selfCount, List.filter_cons]
  by_cases h : (e.2.contains e.1) = true
  · rw [if_pos h, if_pos h, List.length_cons, selfCount]
    omega
  · rw [if_neg h, if_neg h, selfCount]
    omega

lemma selfCount_le (m : DepMap) : selfCount m ≤ m.length :=
  List.length_filter_le _ _

lemma length_depKeys (m : DepMap) : (depKeys m).length = m.length := by
  simp [depKeys]

lemma length_depSet_mem {k : String} (v : List String) {m : DepMap}
    (h : k ∈ depKeys m) : (depSet k v m).length = m.length := by
  rw [← length_depKeys, depKeys_depSet_mem v h, length_depKeys]

lemma phi_depSet (k : String) (v : List String) (m : DepMap) :
    phi (depSet k v m) + (RemoveElementFromList (depGet m k) k).length =
      phi m + (RemoveElementFromList v k).length := by
  induction m with
  | nil =>
    rw [depSet_nil, depGet_nil]
    simp [phi, relLen, RemoveElementFromList]
  | cons e rest ih =>
    rw [depSet_cons]
    by_cases h : (e.1 == k) = true
    · have hek : e.1 = k := by simpa using h
      rw [if_pos h, depGet_cons_pos h, phi_cons, phi_cons]
      simp only [relLen, hek]
      omega
    · rw [if_neg (by simp_all), depGet_cons_neg (by simp_all), phi_cons,
        phi_cons]
      omega

lemma selfCount_depSet (k : String) (v : List String) (m : DepMap) :
    selfCount (depSet k v m) + (if (depGet m k).contains k then 1 else 0) =
      selfCount m + (if v.contains k then 1 else 0) := by
  induction m with
  | nil =>
    rw [depSet_nil, depGet_nil, selfCount_cons]
    simp [selfCount]
  | cons e rest ih =>
    rw [depSet_cons]
    by_cases h : (e.1 == k) = true
    · have hek : e.1 = k := by simpa using h
      rw [if_pos h, depGet_cons_pos h, selfCount_cons, selfCount_cons, hek]
      simp only []
      omega
    · rw [if_neg (by simp_all), depGet_cons_neg (by simp_all),
        selfCount_cons, selfCount_cons]
      omega

lemma nodup_subset_length_le {l U : List String} (hn : l.Nodup)
    (hs : l ⊆ U) : l.length ≤ U.length :=
  (List.Nodup.subperm hn hs).length_le

lemma phi_le {U : List String} :
    ∀ {m : DepMap}, (∀ e ∈ m, e.2.Nodup ∧ e.2 ⊆ U) →
      phi m ≤ m.length * U.length := by
  intro m
  induction m with
  | nil => intro _; simp [phi]
  | cons e rest ih =>
    intro h
    rw [phi_cons]
    have h1 : relLen e ≤ U.length := by
      calc relLen e ≤ e.2.length := length_RemoveElementFromList_le _ _
        _ ≤ U.length :=
          nodup_subset_length_le (h e (List.mem_cons_self _ _)).1
            (h e (List.mem_cons_self _ _)).2
    have h2 := ih (fun e2 h2 => h e2 (List.mem_cons_of_mem _ h2))
    have h3 : (e :: rest).length * U.length =
        U.length + rest.length * U.length := by
      rw [List.length_cons, Nat.succ_mul]
      omega
    omega

lemma nMeasure_le {U : List String} {m : DepMap}
    (h : ∀ e ∈ m, e.2.Nodup ∧ e.2 ⊆ U) :
    nMeasure m ≤ m.length * U.length + m.length := by
  have h1 := phi_le h
  have h2 := selfCount_le m
  rw [nMeasure]
  omega

lemma keyPermCheck_perm :
    ∀ (cand ks : List String), keyPermCheck cand ks = true → cand.Perm ks := by
  intro cand
  induction cand with
  | nil =>
    intro ks h
    rw [keyPermCheck] at h
    rw [List.isEmpty_iff.mp h]
  | cons x rest ih =>
    intro ks h
    rw [keyPermCheck, Bool.and_eq_true] at h
    obtain ⟨h1, h2⟩ := h
    have hx : x ∈ ks := by simpa using h1
    exact ((ih _ h2).cons x).trans (List.perm_cons_erase hx).symm

/-- Invariant on the map: every entry's value is duplicate-free and drawn
from the path universe `U`. -/
def mapOK (U : List String) (m : DepMap) : Prop :=
  ∀ e ∈ m, e.2.Nodup ∧ e.2 ⊆ U

lemma dependentStep_facts {U : List String} {m : DepMap} {b : Bool}
    {module : String} (dependent : String)
    (hmod : module ∈ depKeys m) (hOK : mapOK U m) :
    depKeys (dependentStep module (m, b) dependent).1 = depKeys m ∧
    mapOK U (dependentStep module (m, b) dependent).1 ∧
    nMeasure m ≤ nMeasure (dependentStep module (m, b) dependent).1 ∧
    ((dependentStep module (m, b) dependent).2 = false →
      b = false ∨ nMeasure m + 1 ≤ nMeasure (dependentStep module (m, b) dependent).1) := by
  have hstep : dependentStep module (m, b) dependent =
      (depSet module
        (RemoveElementFromList
          (RemoveDuplicatesFromList
            (depGet m module ++ depGet m dependent)) module) m,
       b && ((depGet m module).length ==
         (RemoveElementFromList
           (RemoveDuplicatesFromList
             (depGet m module ++ depGet m dependent)) module).length)) := rfl
  rw [hstep]
  set cur := depGet m module with hcur
  set list := RemoveElementFromList
    (RemoveDuplicatesFromList (cur ++ depGet m dependent)) module with hlist
  have hkeys : depKeys (depSet module list m) = depKeys m :=
    depKeys_depSet_mem list hmod
  have hlen : (depSet module list m).length = m.length :=
    length_depSet_mem list hmod
  have hselflist : module ∉ list := self_not_mem_RemoveElementFromList _ _
  have hlistnodup : list.Nodup :=
    nodup_RemoveElementFromList _ (nodup_RemoveDuplicatesFromList _)
  have hOK2 : mapOK U (depSet module list m) := by
    intro e he
    rcases mem_depSet he with rfl | he2
    · refine ⟨hlistnodup, ?_⟩
      intro x hx
      have hx2 := (mem_RemoveElementFromList.mp hx).1
      have hx3 := mem_RemoveDuplicatesFromList.mp hx2
      rcases List.mem_append.mp hx3 with h4 | h4
      · exact depGet_subset (fun e2 h5 => (hOK e2 h5).2) module h4
      · exact depGet_subset (fun e2 h5 => (hOK e2 h5).2) dependent h4
    · exact hOK e he2
  have hcurnodup : cur.Nodup :=
    depGet_nodup (fun e he => (hOK e he).1) module
  have hsub : RemoveElementFromList cur module ⊆ list := by
    intro x hx
    obtain ⟨hx1, hx2⟩ := mem_RemoveElementFromList.mp hx
    exact mem_RemoveElementFromList.mpr
      ⟨mem_RemoveDuplicatesFromList.mpr (List.mem_append_left _ hx1), hx2⟩
  have h1 : (RemoveElementFromList cur module).length ≤ list.length :=
    nodup_subset_length_le (nodup_RemoveElementFromList _ hcurnodup) hsub
  have hphi := phi_depSet module list m
  have hsc := selfCount_depSet module list m
  have hliststop : (if list.contains module then 1 else 0) = 0 := by
    rw [if_neg]
    intro hc
    exact hselflist (by simpa using hc)
  have hrelself : RemoveElementFromList list module = list :=
    RemoveElementFromList_of_not_mem hselflist
  have hscm := selfCount_le m
  have hscm2 := selfCount_le (depSet module list m)
  rw [← hcur] at hphi hsc
  rw [hrelself] at hphi
  rw [hliststop] at hsc
  have hmain : nMeasure m ≤ nMeasure (depSet module list m) ∧
      (cur.length ≠ list.length →
        nMeasure m + 1 ≤ nMeasure (depSet module list m)) := by
    by_cases hc : (cur.contains module) = true
    · have hmem : module ∈ cur := by simpa using hc
      have hlt := length_RemoveElementFromList_lt hmem
      rw [if_pos hc] at hsc
      rw [nMeasure, nMeasure, hlen]
      constructor
      · omega
      · intro _; omega
    · have hmem : module ∉ cur := fun h => hc (by simpa using h)
      have heq : RemoveElementFromList cur module = cur :=
        RemoveElementFromList_of_not_mem hmem
      rw [if_neg hc] at hsc
      rw [heq] at hphi h1
      rw [nMeasure, nMeasure, hlen]
      constructor
      · omega
      · intro hne; omega
  refine ⟨hkeys, hOK2, hmain.1, ?_⟩
  intro hflag
  simp only [Bool.and_eq_false_iff] at hflag
  rcases hflag with hb | hsize
  · left; exact hb
  · right
    exact hmain.2 (beq_eq_false_iff_ne.mp hsize)

lemma foldl_dependentStep_facts {U : List String} (module : String) :
    ∀ (deps : List String) (m : DepMap) (b : Bool),
      module ∈ depKeys m → mapOK U m →
      depKeys (deps.foldl (dependentStep module) (m, b)).1 = depKeys m ∧
      mapOK U (deps.foldl (dependentStep module) (m, b)).1 ∧
      nMeasure m ≤ nMeasure (deps.foldl (dependentStep module) (m, b)).1 ∧
      ((deps.foldl (dependentStep module) (m, b)).2 = false →
        b = false ∨
          nMeasure m + 1 ≤
            nMeasure (deps.foldl (dependentStep module) (m, b)).1) := by
  intro deps
  induction deps with
  | nil =>
    intro m b hmod hOK
    exact ⟨rfl, hOK, le_refl _, fun h => Or.inl h⟩
  | cons d rest ih =>
    intro m b hmod hOK
    rw [List.foldl_cons]
    obtain ⟨hk, hOK2, hN, hflag⟩ := dependentStep_facts d hmod hOK
    rcases hp : dependentStep module (m, b) d with ⟨m2, b2⟩
    rw [hp] at hk hOK2 hN hflag
    simp only [] at hk hOK2 hN hflag
    obtain ⟨hk2, hOK3, hN2, hflag2⟩ :=
      ih m2 b2 (by rw [hk]; exact hmod) hOK2
    refine ⟨hk2.trans hk, hOK3, le_trans hN hN2, ?_⟩
    intro hf
    rcases hflag2 hf with hb2 | hstrict
    · rcases hflag hb2 with hb | hstrict1
      · left; exact hb
      · right; omega
    · right; omega

lemma foldl_dependentTurn_facts {U : List String} :
    ∀ (order : List String) (m : DepMap) (b : Bool),
      (∀ x ∈ order, x ∈ depKeys m) → mapOK U m →
      depKeys (order.foldl dependentTurn (m, b)).1 = depKeys m ∧
      mapOK U (order.foldl dependentTurn (m, b)).1 ∧
      nMeasure m ≤ nMeasure (order.foldl dependentTurn (m, b)).1 ∧
      ((order.foldl dependentTurn (m, b)).2 = false →
        b = false ∨
          nMeasure m + 1 ≤
            nMeasure (order.foldl dependentTurn (m, b)).1) := by
  intro order
  induction order with
  | nil =>
    intro m b _ hOK
    exact ⟨rfl, hOK, le_refl _, fun h => Or.inl h⟩
  | cons o rest ih =>
    intro m b horder hOK
    rw [List.foldl_cons]
    have hdef : dependentTurn (m, b) o =
        (depGet m o).foldl (dependentStep o) (m, b) := rfl
    obtain ⟨hk, hOK2, hN, hflag⟩ :=
      foldl_dependentStep_facts o (depGet m o) m b
        (horder o (List.mem_cons_self _ _)) hOK
    rw [← hdef] at hk hOK2 hN hflag
    rcases hp : dependentTurn (m, b) o with ⟨m2, b2⟩
    rw [hp] at hk hOK2 hN hflag
    simp only [] at hk hOK2 hN hflag
    obtain ⟨hk2, hOK3, hN2, hflag2⟩ :=
      ih m2 b2
        (fun x hx => by
          rw [hk]; exact horder x (List.mem_cons_of_mem _ hx))
        hOK2
    refine ⟨hk2.trans hk, hOK3, le_trans hN hN2, ?_⟩
    intro hf
    rcases hflag2 hf with hb2 | hstrict
    · rcases hflag hb2 with hb | hstrict1
      · left; exact hb
      · right; omega
    · right; omega

lemma dependentRound_facts {U : List String} (m : DepMap)
    (order : List String) (horder : ∀ x ∈ order, x ∈ depKeys m)
    (hOK : mapOK U m) :
    depKeys (dependentRound m order).1 = depKeys m ∧
    mapOK U (dependentRound m order).1 ∧
    nMeasure m ≤ nMeasure (dependentRound m order).1 ∧
    ((dependentRound m order).2 = false →
      nMeasure m + 1 ≤ nMeasure (dependentRound m order).1) := by
  obtain ⟨hk, hOK2, hN, hflag⟩ :=
    foldl_dependentTurn_facts order m true horder hOK
  refine ⟨hk, hOK2, hN, ?_⟩
  intro hf
  rcases hflag hf with hb | hstrict
  · cases hb
  · exact hstrict

lemma fixpointLoop_eq_true (oracle : Nat → List String)
    {U : List String} :
    ∀ (fuel : Nat) (m : DepMap) (rnd : Nat),
      mapOK U m →
      m.length * U.length + m.length + 1 ≤ nMeasure m + fuel →
      (fixpointLoop oracle m rnd fuel).2 = true := by
  intro fuel
  induction fuel with
  | zero =>
    intro m rnd hOK hb
    exact absurd hb (by have := nMeasure_le hOK; omega)
  | succ fuel ih =>
    intro m rnd hOK hb
    rw [fixpointLoop]
    rcases hmn : dependentRound m
        (if keyPermCheck (oracle rnd) (depKeys m) then oracle rnd
          else depKeys m) with ⟨m2, noUp⟩
    have horder : ∀ x ∈ (if keyPermCheck (oracle rnd) (depKeys m)
        then oracle rnd else depKeys m), x ∈ depKeys m := by
      by_cases hkp : keyPermCheck (oracle rnd) (depKeys m) = true
      · rw [if_pos hkp]
        intro x hx
        exact (keyPermCheck_perm _ _ hkp).mem_iff.mp hx
      · rw [if_neg hkp]
        intro x hx
        exact hx
    obtain ⟨hk, hOK2, hN, hflag⟩ := dependentRound_facts m _ horder hOK
    rw [hmn] at hk hOK2 hN hflag
    simp only [] at hk hOK2 hN hflag
    cases noUp with
    | true => simp [hmn]
    | false =>
      simp only [hmn]
      have hlen : m2.length = m.length := by
        rw [← length_depKeys, hk, length_depKeys]
      have hstrict := hflag rfl
      exact ih m2 (rnd + 1) hOK2 (by rw [hlen]; omega)

lemma foldl_preserve {α β : Type} (P : α → Prop) (f : α → β → α)
    (h : ∀ a b, P a → P (f a b)) :
    ∀ (l : List β) (a : α), P a → P (l.foldl f a) := by
  intro l
  induction l with
  | nil => intro a ha; exact ha
  | cons x rest ih =>
    intro a ha
    rw [List.foldl_cons]
    exact ih _ (h a x ha)

lemma buildDepStep_values_nodup (p : String) (m : DepMap) (d : String)
    (h : ∀ e ∈ m, e.2.Nodup) : ∀ e ∈ buildDepStep p m d, e.2.Nodup := by
  intro e he
  rcases mem_depSet he with rfl | he2
  · exact nodup_RemoveDuplicatesFromList _
  · exact h e he2

lemma buildModuleStep_values_nodup (m : DepMap) (mod : TerraformModule)
    (h : ∀ e ∈ m, e.2.Nodup) : ∀ e ∈ buildModuleStep m mod, e.2.Nodup := by
  rw [buildModuleStep]
  by_cases hd : mod.Dependencies.length ≠ 0
  · rw [if_pos hd]
    exact foldl_preserve (fun m2 => ∀ e ∈ m2, e.2.Nodup)
      (buildDepStep mod.Path)
      (fun m2 d h2 => buildDepStep_values_nodup mod.Path m2 d h2)
      mod.Dependencies m h
  · rw [if_neg hd]
    exact h

lemma build_values_nodup (modules : List TerraformModule) :
    ∀ e ∈ buildDependentModules modules, e.2.Nodup := by
  rw [buildDependentModules]
  exact foldl_preserve (fun m2 => ∀ e ∈ m2, e.2.Nodup) buildModuleStep
    (fun m2 mod h2 => buildModuleStep_values_nodup m2 mod h2)
    modules [] (by intro e he; cases he)

lemma buildDepStep_keys_nodup (p : String) (m : DepMap) (d : String)
    (h : (depKeys m).Nodup) : (depKeys (buildDepStep p m d)).Nodup := by
  rw [buildDepStep]
  by_cases hd : d ∈ depKeys m
  · rw [depKeys_depSet_mem _ hd]
    exact h
  · rw [depKeys_depSet_not_mem _ hd]
    refine List.nodup_append.mpr ⟨h, List.nodup_singleton _, ?_⟩
    intro x hx hx2
    have : x = d := by simpa using hx2
    exact hd (this ▸ hx)

lemma buildModuleStep_keys_nodup (m : DepMap) (mod : TerraformModule)
    (h : (depKeys m).Nodup) : (depKeys (buildModuleStep m mod)).Nodup := by
  rw [buildModuleStep]
  by_cases hd : mod.Dependencies.length ≠ 0
  · rw [if_pos hd]
    exact foldl_preserve (fun m2 => (depKeys m2).Nodup)
      (buildDepStep mod.Path)
      (fun m2 d h2 => buildDepStep_keys_nodup mod.Path m2 d h2)
      mod.Dependencies m h
  · rw [if_neg hd]
    exact h

lemma build_keys_nodup (modules : List TerraformModule) :
    (depKeys (buildDependentModules modules)).Nodup := by
  rw [buildDependentModules]
  exact foldl_preserve (fun m2 => (depKeys m2).Nodup) buildModuleStep
    (fun m2 mod h2 => buildModuleStep_keys_nodup m2 mod h2)
    modules [] (by simp [depKeys_nil])

lemma mapOK_pathUniverse {m : DepMap} (h : ∀ e ∈ m, e.2.Nodup) :
    mapOK (pathUniverse m) m := by
  intro e he
  refine ⟨h e he, ?_⟩
  intro x hx
  rw [pathUniverse]
  apply mem_RemoveDuplicatesFromList.mpr
  apply List.mem_append_right
  exact List.mem_flatten.mpr ⟨e.2, List.mem_map_of_mem _ he, hx⟩

/-! ### After a full round, no entry contains its own key -/

lemma foldl_dependentStep_noSelf (k : String) :
    ∀ (deps : List String) (mb : DepMap × Bool), deps ≠ [] →
      k ∉ depGet (deps.foldl (dependentStep k) mb).1 k := by
  intro deps
  induction deps with
  | nil => intro mb h; exact absurd rfl h
  | cons d rest ih =>
    intro mb _
    rw [List.foldl_cons]
    cases rest with
    | nil =>
      rw [List.foldl_nil]
      have hdef : (dependentStep k mb d).1 =
          depSet k
            (RemoveElementFromList
              (RemoveDuplicatesFromList
                (depGet mb.1 k ++ depGet mb.1 d)) k) mb.1 := rfl
      rw [hdef, depGet_depSet_self]
      exact self_not_mem_RemoveElementFromList _ _
    | cons d2 rest2 => exact ih _ (by simp)

lemma dependentTurn_noSelf_self (mb : DepMap × Bool) (k : String) :
    k ∉ depGet (dependentTurn mb k).1 k := by
  have hdef : dependentTurn mb k =
      (depGet mb.1 k).foldl (dependentStep k) mb := rfl
  rcases hd : depGet mb.1 k with _ | ⟨d, rest⟩
  · rw [hdef, hd, List.foldl_nil, hd]
    exact List.not_mem_nil k
  · rw [hdef, hd]
    exact foldl_dependentStep_noSelf k (d :: rest) mb (by simp)

lemma foldl_dependentStep_preserves_other {module k : String}
    (hne : module ≠ k) :
    ∀ (deps : List String) (mb : DepMap × Bool),
      depGet (deps.foldl (dependentStep module) mb).1 k = depGet mb.1 k := by
  intro deps
  induction deps with
  | nil => intro mb; rfl
  | cons d rest ih =>
    intro mb
    rw [List.foldl_cons, ih]
    have hdef : (dependentStep module mb d).1 =
        depSet module
          (RemoveElementFromList
            (RemoveDuplicatesFromList
              (depGet mb.1 module ++ depGet mb.1 d)) module) mb.1 := rfl
    rw [hdef, depGet_depSet_ne hne]

lemma dependentTurn_preserves_other {module k : String} (hne : module ≠ k)
    (mb : DepMap × Bool) :
    depGet (dependentTurn mb module).1 k = depGet mb.1 k := by
  have hdef : dependentTurn mb module =
      (depGet mb.1 module).foldl (dependentStep module) mb := rfl
  rw [hdef, foldl_dependentStep_preserves_other hne]

lemma foldl_dependentTurn_preserves (k : String) :
    ∀ (order : List String), (∀ x ∈ order, x ≠ k) →
      ∀ (mb : DepMap × Bool),
        depGet (order.foldl dependentTurn mb).1 k = depGet mb.1 k := by
  intro order
  induction order with
  | nil => intro _ mb; rfl
  | cons o rest ih =>
    intro h mb
    rw [List.foldl_cons,
      ih (fun x hx => h x (List.mem_cons_of_mem _ hx)),
      dependentTurn_preserves_other (h o (List.mem_cons_self _ _))]

lemma dependentRound_noSelf (m : DepMap) (order : List String)
    (hnd : order.Nodup) (k : String) (hk : k ∈ order) :
    k ∉ depGet (dependentRound m order).1 k := by
  obtain ⟨pre, post, rfl⟩ := List.append_of_mem hk
  have hkpost : k ∉ post := by
    have h2 := (List.Nodup.of_append_right hnd)
    exact (List.nodup_cons.mp h2).1
  rw [dependentRound, List.foldl_append, List.foldl_cons]
  rw [foldl_dependentTurn_preserves k post
    (fun x hx hxk => hkpost (hxk ▸ hx)) _]
  exact dependentTurn_noSelf_self _ k

/-! ### Soundness: every listed path is a transitive dependent -/

/-- Every path listed for `k` is a transitive dependent of `k`. -/
def depSound (modules : List TerraformModule) (m : DepMap) : Prop :=
  ∀ k x, x ∈ depGet m k → TransDepends modules x k

lemma dependentStep_sound {modules : List TerraformModule}
    {module : String} (d : String) (mb : DepMap × Bool)
    (hs : depSound modules mb.1)
    (hd : TransDepends modules d module) :
    depSound modules (dependentStep module mb d).1 := by
  intro k x hx
  have hdef : (dependentStep module mb d).1 =
      depSet module
        (RemoveElementFromList
          (RemoveDuplicatesFromList
            (depGet mb.1 module ++ depGet mb.1 d)) module) mb.1 := rfl
  by_cases hk : module = k
  · subst hk
    rw [hdef, depGet_depSet_self] at hx
    obtain ⟨hx1, _⟩ := mem_RemoveElementFromList.mp hx
    rcases List.mem_append.mp (mem_RemoveDuplicatesFromList.mp hx1) with
      h | h
    · exact hs module x h
    · exact (hs d x h).trans hd
  · rw [hdef, depGet_depSet_ne hk] at hx
    exact hs k x hx

lemma foldl_dependentStep_sound {modules : List TerraformModule}
    {module : String} :
    ∀ (deps : List String) (mb : DepMap × Bool),
      depSound modules mb.1 →
      (∀ d ∈ deps, TransDepends modules d module) →
      depSound modules ((deps.foldl (dependentStep module) mb)).1 := by
  intro deps
  induction deps with
  | nil => intro mb hs _; exact hs
  | cons d rest ih =>
    intro mb hs hd
    rw [List.foldl_cons]
    exact ih _
      (dependentStep_sound d mb hs (hd d (List.mem_cons_self _ _)))
      (fun d2 h2 => hd d2 (List.mem_cons_of_mem _ h2))

lemma dependentTurn_sound {modules : List TerraformModule}
    (mb : DepMap × Bool) (module : String)
    (hs : depSound modules mb.1) :
    depSound modules (dependentTurn mb module).1 := by
  have hdef : dependentTurn mb module =
      (depGet mb.1 module).foldl (dependentStep module) mb := rfl
  rw [hdef]
  exact foldl_dependentStep_sound _ mb hs (fun d hd => hs module d hd)

lemma foldl_dependentTurn_sound {modules : List TerraformModule} :
    ∀ (order : List String) (mb : DepMap × Bool),
      depSound modules mb.1 →
      depSound modules ((order.foldl dependentTurn mb)).1 := by
  intro order
  induction order with
  | nil => intro mb hs; exact hs
  | cons o rest ih =>
    intro mb hs
    rw [List.foldl_cons]
    exact ih _ (dependentTurn_sound mb o hs)

lemma fixpointLoop_sound {modules : List TerraformModule}
    (oracle : Nat → List String) :
    ∀ (fuel : Nat) (m : DepMap) (rnd : Nat),
      depSound modules m →
      depSound modules (fixpointLoop oracle m rnd fuel).1 := by
  intro fuel
  induction fuel with
  | zero => intro m rnd hs; exact hs
  | succ fuel ih =>
    intro m rnd hs
    rw [fixpointLoop]
    rcases hmn : dependentRound m
        (if keyPermCheck (oracle rnd) (depKeys m) then oracle rnd
          else depKeys m) with ⟨m2, noUp⟩
    have hs2 : depSound modules m2 := by
      have := foldl_dependentTurn_sound
        (if keyPermCheck (oracle rnd) (depKeys m) then oracle rnd
          else depKeys m) (m, true) hs
      rw [dependentRound] at hmn
      rw [hmn] at this
      exact this
    cases noUp with
    | true => simpa using hs2
    | false => simpa using ih m2 (rnd + 1) hs2

lemma buildDepStep_sound {modules : List TerraformModule}
    {mod : TerraformModule} (hmod : mod ∈ modules) :
    ∀ (d : String), d ∈ mod.Dependencies → ∀ (m : DepMap),
      depSound modules m →
      depSound modules (buildDepStep mod.Path m d) := by
  intro d hd m hs k x hx
  rw [buildDepStep] at hx
  by_cases hk : d = k
  · subst hk
    rw [depGet_depSet_self] at hx
    rcases List.mem_append.mp (mem_RemoveDuplicatesFromList.mp hx) with
      h | h
    · exact hs d x h
    · have hxp : x = mod.Path := by simpa using h
      subst hxp
      exact Relation.TransGen.single ⟨mod, hmod, rfl, hd⟩
  · rw [depGet_depSet_ne hk] at hx
    exact hs k x hx

lemma foldl_buildDepStep_sound {modules : List TerraformModule}
    {mod : TerraformModule} (hmod : mod ∈ modules) :
    ∀ (deps : List String), (∀ d ∈ deps, d ∈ mod.Dependencies) →
      ∀ (m : DepMap), depSound modules m →
        depSound modules (deps.foldl (buildDepStep mod.Path) m) := by
  intro deps
  induction deps with
  | nil => intro _ m hs; exact hs
  | cons d rest ih =>
    intro hd m hs
    rw [List.foldl_cons]
    exact ih (fun d2 h2 => hd d2 (List.mem_cons_of_mem _ h2)) _
      (buildDepStep_sound hmod d (hd d (List.mem_cons_self _ _)) m hs)

lemma buildModuleStep_sound {modules : List TerraformModule}
    {mod : TerraformModule} (hmod : mod ∈ modules) (m : DepMap)
    (hs : depSound modules m) :
    depSound modules (buildModuleStep m mod) := by
  rw [buildModuleStep]
  by_cases hd : mod.Dependencies.length ≠ 0
  · rw [if_pos hd]
    exact foldl_buildDepStep_sound hmod mod.Dependencies
      (fun _ h => h) m hs
  · rw [if_neg hd]
    exact hs

lemma build_sound (modules : List TerraformModule) :
    depSound modules (buildDependentModules modules) := by
  rw [buildDependentModules]
  have hgen : ∀ (mods : List TerraformModule),
      (∀ mod ∈ mods, mod ∈ modules) → ∀ (m : DepMap),
        depSound modules m →
        depSound modules (mods.foldl buildModuleStep m) := by
    intro mods
    induction mods with
    | nil => intro _ m hs; exact hs
    | cons mod rest ih =>
      intro hm m hs
      rw [List.foldl_cons]
      exact ih (fun m2 h2 => hm m2 (List.mem_cons_of_mem _ h2)) _
        (buildModuleStep_sound (hm mod (List.mem_cons_self _ _)) m hs)
  refine hgen modules (fun _ h => h) [] ?_
  intro k x hx
  rw [depGet_nil] at hx
  cases hx

lemma fixpointLoop_facts (oracle : Nat → List String) {U : List String} :
    ∀ (fuel : Nat) (m : DepMap) (rnd : Nat),
      (depKeys m).Nodup → mapOK U m →
      mapOK U (fixpointLoop oracle m rnd fuel).1 ∧
      ((fixpointLoop oracle m rnd fuel).2 = true →
        ∀ k, k ∉ depGet (fixpointLoop oracle m rnd fuel).1 k) := by
  intro fuel
  induction fuel with
  | zero =>
    intro m rnd _ hOK
    exact ⟨hOK, fun h => absurd h (by simp [fixpointLoop])⟩
  | succ fuel ih =>
    intro m rnd hnd hOK
    rw [fixpointLoop]
    rcases hmn : dependentRound m
        (if keyPermCheck (oracle rnd) (depKeys m) then oracle rnd
          else depKeys m) with ⟨m2, noUp⟩
    have horder : ∀ x ∈ (if keyPermCheck (oracle rnd) (depKeys m)
        then oracle rnd else depKeys m), x ∈ depKeys m := by
      by_cases hkp : keyPermCheck (oracle rnd) (depKeys m) = true
      · rw [if_pos hkp]
        intro x hx
        exact (keyPermCheck_perm _ _ hkp).mem_iff.mp hx
      · rw [if_neg hkp]
        intro x hx
        exact hx
    have hordernd : (if keyPermCheck (oracle rnd) (depKeys m)
        then oracle rnd else depKeys m).Nodup := by
      by_cases hkp : keyPermCheck (oracle rnd) (depKeys m) = true
      · rw [if_pos hkp]
        exact (keyPermCheck_perm _ _ hkp).nodup_iff.mpr hnd
      · rw [if_neg hkp]
        exact hnd
    have hordercov : ∀ x ∈ depKeys m,
        x ∈ (if keyPermCheck (oracle rnd) (depKeys m)
          then oracle rnd else depKeys m) := by
      by_cases hkp : keyPermCheck (oracle rnd) (depKeys m) = true
      · rw [if_pos hkp]
        intro x hx
        exact (keyPermCheck_perm _ _ hkp).mem_iff.mpr hx
      · rw [if_neg hkp]
        intro x hx
        exact hx
    obtain ⟨hk, hOK2, _, _⟩ := dependentRound_facts m _ horder hOK
    rw [hmn] at hk hOK2
    simp only [] at hk hOK2
    cases noUp with
    | true =>
      rw [if_pos (show ((m2, true).2 : Bool) = true from rfl)]
      refine ⟨hOK2, ?_⟩
      intro _ k
      by_cases hkin : k ∈ depKeys m
      · have := dependentRound_noSelf m _ hordernd k (hordercov k hkin)
        rw [hmn] at this
        exact this
      · rw [show ((m2, true).1 : DepMap) = m2 from rfl,
          depGet_eq_nil_of_not_mem (by rw [hk]; exact hkin)]
        exact List.not_mem_nil k
    | false =>
      rw [if_neg (show ¬(((m2, false).2 : Bool) = true) from by simp)]
      exact ih m2 (rnd + 1) (by rw [hk]; exact hnd) hOK2

/-- **C10 (amended).** For every stack and every map-iteration order the
Go runtime may produce, `ListStackDependentModules` terminates (the
fixpoint loop always exits through `noUpdates`, with fuel bounded by
`dependentFuel`); in the returned map every module path's list is
duplicate-free, never contains the module's own path, and is *sound* —
every listed path is a transitive dependent of the module.  The converse
(completeness: every transitive dependent is listed) is *false*: the
update check compares only list lengths, so under some map iteration
orders a merge that replaces one path by another is taken for "no
update" and the loop stops early (see the counterexample). -/
theorem listStackDependentModules_spec (modules : List TerraformModule)
    (orderOracle : Nat → List String) :
    (ListStackDependentModules modules orderOracle).2 = true ∧
    (∀ k,
      (depGet (ListStackDependentModules modules orderOracle).1 k).Nodup) ∧
    (∀ k, k ∉ depGet (ListStackDependentModules modules orderOracle).1 k) ∧
    (∀ k x, x ∈ depGet (ListStackDependentModules modules orderOracle).1 k →
      TransDepends modules x k) := by
  have hdef : ListStackDependentModules modules orderOracle =
      fixpointLoop orderOracle (buildDependentModules modules) 0
        (dependentFuel (buildDependentModules modules)) := rfl
  have hvn := build_values_nodup modules
  have hOK : mapOK (pathUniverse (buildDependentModules modules))
      (buildDependentModules modules) := mapOK_pathUniverse hvn
  have hknd := build_keys_nodup modules
  have hconv : (fixpointLoop orderOracle (buildDependentModules modules) 0
      (dependentFuel (buildDependentModules modules))).2 = true := by
    apply fixpointLoop_eq_true orderOracle _ _ _ hOK
    rw [dependentFuel]
    omega
  obtain ⟨hOKf, hnoself⟩ := fixpointLoop_facts orderOracle
    (dependentFuel (buildDependentModules modules))
    (buildDependentModules modules) 0 hknd hOK
  refine ⟨?_, ?_, ?_, ?_⟩
  · rw [hdef]; exact hconv
  · intro k
    rw [hdef]
    exact depGet_nodup (fun e he => (hOKf e he).1) k
  · intro k
    rw [hdef]
    exact hnoself hconv k
  · intro k x hx
    rw [hdef] at hx
    exact fixpointLoop_sound orderOracle _ _ _ (build_sound modules) k x hx

end Spec2Proof
